import Mathlib

/-!
Verification of the commit-message generation core of `vibemit`
(`src/ollama.ts`): response normalization, candidate cleaning, validity
filtering, deduplication, the bounded retry loop with temperature
escalation, and the subject-length repair pass.

Strings are modelled as lists of characters (`Str`).  JavaScript string
methods and the regular expressions used by the source are modelled by
explicit scanning functions; the model backend is a function from call
index to outcome, so theorems quantify over every possible sequence of
backend responses.
-/

set_option autoImplicit false
set_option maxRecDepth 40000

abbrev Str := List Char

/-- Whitespace as stripped by JavaScript `trim` and matched by `\s`
(restricted to the ASCII whitespace characters). -/
def isWsChar (c : Char) : Bool :=
  c = ' ' || c = '\t' || c = '\n' || c = '\r' || c = '\x0b' || c = '\x0c'

/-- Drop the longest suffix all of whose characters satisfy `p`. -/
def dropEndWhile (p : Char → Bool) (s : Str) : Str :=
  ((s.reverse).dropWhile p).reverse

/-- JavaScript `String.prototype.trim`. -/
def trimStr (s : Str) : Str :=
  dropEndWhile isWsChar (s.dropWhile isWsChar)

/-- JavaScript `String.prototype.toLowerCase` (ASCII letters). -/
def toLowerStr (s : Str) : Str := s.map Char.toLower

/-- JavaScript `message.split("\n")`.  Always returns at least one piece. -/
def splitNl : Str → List Str
  | [] => [[]]
  | c :: rest =>
    match splitNl rest with
    | [] => [[]]
    | g :: gs => if c = '\n' then [] :: g :: gs else (c :: g) :: gs

/-- JavaScript `lines.join("\n")`. -/
def joinNl : List Str → Str
  | [] => []
  | [l] => l
  | l :: ls => l ++ '\n' :: joinNl ls

/-- Does `s` begin with three newline characters (the start of a
`/\n{3,}/` separator)? -/
def threeNl (s : Str) : Bool :=
  match s with
  | '\n' :: '\n' :: '\n' :: _ => true
  | _ => false

/-- JavaScript `cleaned.split(/\n{3,}/)`: split on maximal runs of three or
more newlines.  `fuel = s.length` suffices for the recursion. -/
def splitBlocksAux : ℕ → Str → List Str
  | 0, s => [s]
  | fuel+1, s =>
    match s with
    | [] => [[]]
    | c :: rest =>
      if threeNl (c :: rest) then
        [] :: splitBlocksAux fuel ((c :: rest).dropWhile (· = '\n'))
      else
        match splitBlocksAux fuel rest with
        | [] => [[]]
        | g :: gs => (c :: g) :: gs

def splitBlocks (s : Str) : List Str := splitBlocksAux s.length s

/-- Exact prefix test, returning the remainder after the pattern. -/
def stripExact : Str → Str → Option Str
  | [], s => some s
  | _ :: _, [] => none
  | p :: ps, c :: cs => if p = c then stripExact ps cs else none

/-- Does `pat` occur exactly as a contiguous substring of `s`
(JavaScript `String.prototype.includes`)? -/
def hasSubstr (pat : Str) : Str → Bool
  | [] => (stripExact pat []).isSome
  | c :: rest => (stripExact pat (c :: rest)).isSome || hasSubstr pat rest

/-- Leftmost exact occurrence of `pat` in `s`: returns the text before the
match and the text after it. -/
def splitFirst (pat : Str) : Str → Option (Str × Str)
  | [] => (stripExact pat []).map (fun r => (([] : Str), r))
  | c :: rest =>
    match stripExact pat (c :: rest) with
    | some r => some ([], r)
    | none =>
      match splitFirst pat rest with
      | some (b, a) => some (c :: b, a)
      | none => none

/-- Case-insensitive character comparison (regex `i` flag, ASCII). -/
def ciEq (a b : Char) : Bool := a.toLower = b.toLower

/-- Case-insensitive prefix test, returning the remainder. -/
def ciStrip : Str → Str → Option Str
  | [], s => some s
  | _ :: _, [] => none
  | p :: ps, c :: cs => if ciEq p c then ciStrip ps cs else none

/-- Leftmost case-insensitive occurrence of `pat` in `s`. -/
def splitFirstCI (pat : Str) : Str → Option (Str × Str)
  | [] => (ciStrip pat []).map (fun r => (([] : Str), r))
  | c :: rest =>
    match ciStrip pat (c :: rest) with
    | some r => some ([], r)
    | none =>
      match splitFirstCI pat rest with
      | some (b, a) => some (c :: b, a)
      | none => none

/-- Does `pat` occur case-insensitively in `s`? -/
def containsCI (pat s : Str) : Bool := (splitFirstCI pat s).isSome

def thinkOpenTag : Str := "<think>".toList

def thinkCloseTag : Str := "</think>".toList

/-- One global pass of `raw.replace(/<think>[\s\S]*?<\/think>/gi, "")`:
repeatedly delete from the leftmost `<think>` to the first `</think>`
after it, then continue after the deleted block.  `fuel = s.length`
suffices. -/
def stripThinkAux : ℕ → Str → Str
  | 0, s => s
  | fuel+1, s =>
    match splitFirstCI thinkOpenTag s with
    | none => s
    | some (before, afterOpen) =>
      match splitFirstCI thinkCloseTag afterOpen with
      | none => s
      | some (_, afterClose) => before ++ stripThinkAux fuel afterClose

def stripThinkBlocks (s : Str) : Str := stripThinkAux s.length s

/-- Model of `cleaned.replace(/^\d+[\.\)\:]\s*/, "")`: leading enumeration marker. -/
def stripNumbering (s : Str) : Str :=
  if s.takeWhile Char.isDigit = [] then s
  else
    match s.dropWhile Char.isDigit with
    | c :: rest =>
      if c = '.' || c = ')' || c = ':' then rest.dropWhile isWsChar else s
    | [] => s

/-- Model of `cleaned.replace(/^[-\*•]\s*/, "")`: one leading bullet marker. -/
def stripBullet (s : Str) : Str :=
  match s with
  | c :: rest =>
    if c = '-' || c = '*' || c = '•' then rest.dropWhile isWsChar else s
  | [] => s

/-- Quote characters: double quote, single quote, backtick. -/
def isQuoteChar (c : Char) : Bool := c = '"' || c = '\x27' || c = '\x60'

/-- Emphasis characters: backtick, asterisk, underscore. -/
def isEmphChar (c : Char) : Bool := c = '\x60' || c = '*' || c = '_'

/-- A global replace of `/^X+|X+$/g` for a character class `p`: remove the
maximal leading run and the maximal trailing run of the remainder. -/
def stripWrap (p : Char → Bool) (s : Str) : Str :=
  dropEndWhile p (s.dropWhile p)

/-- Model of `cleaned.replace(/<\/?think>/gi, "")`: delete stray think-tag fragments
in a single left-to-right pass (the produced text is not rescanned). -/
def stripThinkTags : ℕ → Str → Str
  | 0, s => s
  | fuel+1, s =>
    match s with
    | [] => []
    | c :: rest =>
      match ciStrip thinkCloseTag (c :: rest) with
      | some r => stripThinkTags fuel r
      | none =>
        match ciStrip thinkOpenTag (c :: rest) with
        | some r => stripThinkTags fuel r
        | none => c :: stripThinkTags fuel rest

/-- Model of `cleanCandidate` from `src/ollama.ts`: trims, strips a leading
enumeration marker, a leading bullet, wrapping quotes, wrapping emphasis
markers and stray think tags, re-trims, and rejects empty results. -/
def cleanCandidate (text : Str) : Str :=
  let c1 := trimStr text
  let c2 := stripNumbering c1
  let c3 := stripBullet c2
  let c4 := stripWrap isQuoteChar c3
  let c5 := stripWrap isEmphChar c4
  let c6 := stripThinkTags c5.length c5
  let c7 := trimStr c6
  if c7.length = 0 then [] else c7

/-- Model of `dedupeCandidates` from `src/ollama.ts`: case-insensitive, first seen
casing wins.  `seen` models the JavaScript `Set` of lowercased keys. -/
def dedupeAux : List Str → List Str → List Str
  | _, [] => []
  | seen, c :: cs =>
    if toLowerStr c ∈ seen then dedupeAux seen cs
    else c :: dedupeAux (toLowerStr c :: seen) cs

def dedupeCandidates (cands : List Str) : List Str := dedupeAux [] cands

def isBulletChar (c : Char) : Bool := c = '-' || c = '*' || c = '•'

/-- Model of `/\s[-*•]\s+/.test(subject)`: an embedded bullet pattern. -/
def hasEmbeddedBullet : Str → Bool
  | a :: b :: c :: rest =>
    (isWsChar a && isBulletChar b && isWsChar c) || hasEmbeddedBullet (b :: c :: rest)
  | _ => false

def fenceMarker : Str := "```".toList

/-- Model of `isValidCommitMessage` from `src/ollama.ts`. -/
def isValidCommitMessage (message : Str) (hasBody : Bool) : Bool :=
  if message.isEmpty || (trimStr message).isEmpty then false
  else if hasSubstr fenceMarker message then false
  else
    let lines := splitNl message
    let subject := trimStr (lines.headD [])
    if subject.isEmpty then false
    else if !hasBody && decide (1 < lines.length) then false
    else if !hasBody && hasEmbeddedBullet subject then false
    else if hasBody && ((lines.drop 1).filter (fun l => !(trimStr l).isEmpty)).isEmpty then false
    else true

/-- Model of `filterValidCommitMessages` from `src/ollama.ts`. -/
def filterValidCommitMessages (messages : List Str) (hasBody : Bool) : List Str :=
  messages.filter (fun m => isValidCommitMessage m hasBody)

/-- JSON values as produced by `JSON.parse`.  Numbers keep their lexeme,
since no numeric value is ever consumed by this program. -/
inductive JValue where
  | null
  | bool (b : Bool)
  | num (lexeme : Str)
  | str (s : Str)
  | arr (elems : List JValue)
  | obj (fields : List (Str × JValue))

/-- JSON insignificant whitespace. -/
def isJsonWs (c : Char) : Bool := c = ' ' || c = '\t' || c = '\n' || c = '\r'

def escChar (e : Char) : Option Char :=
  if e = '"' then some '"'
  else if e = '\\' then some '\\'
  else if e = '/' then some '/'
  else if e = 'b' then some '\x08'
  else if e = 'f' then some '\x0c'
  else if e = 'n' then some '\n'
  else if e = 'r' then some '\r'
  else if e = 't' then some '\t'
  else none

def isHexDigitChar (c : Char) : Bool :=
  c.isDigit || ('a' ≤ c && c ≤ 'f') || ('A' ≤ c && c ≤ 'F')

def hexVal (c : Char) : ℕ :=
  if c.isDigit then c.toNat - 48
  else if 'a' ≤ c ∧ c ≤ 'f' then c.toNat - 87
  else c.toNat - 55

/-- JSON string literal body, after the opening quote: returns the decoded
characters and the remainder after the closing quote. -/
def parseJsonStr : ℕ → Str → Option (Str × Str)
  | 0, _ => none
  | fuel+1, s =>
    match s with
    | [] => none
    | '"' :: rest => some ([], rest)
    | '\\' :: e :: rest =>
      if e = 'u' then
        match rest with
        | h1 :: h2 :: h3 :: h4 :: rest2 =>
          if isHexDigitChar h1 && isHexDigitChar h2 && isHexDigitChar h3 && isHexDigitChar h4 then
            match parseJsonStr fuel rest2 with
            | some (t, r) =>
              some (Char.ofNat (hexVal h1 * 4096 + hexVal h2 * 256 + hexVal h3 * 16 + hexVal h4) :: t, r)
            | none => none
          else none
        | _ => none
      else
        match escChar e with
        | some ec =>
          match parseJsonStr fuel rest with
          | some (t, r) => some (ec :: t, r)
          | none => none
        | none => none
    | c :: rest =>
      if c.toNat < 32 then none
      else
        match parseJsonStr fuel rest with
        | some (t, r) => some (c :: t, r)
        | none => none

def parseJsonExp (lex : Str) (s : Str) : Option (Str × Str) :=
  match s with
  | e :: rest =>
    if e = 'e' || e = 'E' then
      let sg : Str := match rest with
        | '+' :: _ => ['+']
        | '-' :: _ => ['-']
        | _ => []
      let r1 : Str := match rest with
        | '+' :: r => r
        | '-' :: r => r
        | _ => rest
      let ds := r1.takeWhile Char.isDigit
      if ds = [] then none
      else some (lex ++ e :: (sg ++ ds), r1.dropWhile Char.isDigit)
    else some (lex, s)
  | [] => some (lex, [])

def parseJsonFrac (lex : Str) (s : Str) : Option (Str × Str) :=
  match s with
  | '.' :: rest =>
    let ds := rest.takeWhile Char.isDigit
    if ds = [] then none
    else parseJsonExp (lex ++ '.' :: ds) (rest.dropWhile Char.isDigit)
  | _ => parseJsonExp lex s

def parseJsonInt (sign : Str) (s : Str) : Option (Str × Str) :=
  match s with
  | [] => none
  | c :: rest =>
    if c = '0' then parseJsonFrac (sign ++ ['0']) rest
    else if c.isDigit then
      parseJsonFrac (sign ++ c :: rest.takeWhile Char.isDigit) (rest.dropWhile Char.isDigit)
    else none

/-- JSON number token: `-?(0|[1-9][0-9]*)(\.[0-9]+)?([eE][+-]?[0-9]+)?`. -/
def parseJsonNumber (s : Str) : Option (Str × Str) :=
  match s with
  | '-' :: s1 => parseJsonInt ['-'] s1
  | _ => parseJsonInt [] s

mutual

/-- JSON value parser (model of `JSON.parse`); `fuel` bounds recursion. -/
def parseJsonVal (fuel : ℕ) (s : Str) : Option (JValue × Str) :=
  match fuel with
  | 0 => none
  | fuel'+1 =>
    let s1 := s.dropWhile isJsonWs
    match s1 with
    | [] => none
    | c :: rest =>
      if c = '\x7b' then parseJsonFields fuel' rest true []
      else if c = '[' then parseJsonElems fuel' rest true []
      else if c = '"' then
        match parseJsonStr (rest.length + 1) rest with
        | some (st, r) => some (.str st, r)
        | none => none
      else if c = 't' then
        match stripExact ("rue".toList) rest with
        | some r => some (.bool true, r)
        | none => none
      else if c = 'f' then
        match stripExact ("alse".toList) rest with
        | some r => some (.bool false, r)
        | none => none
      else if c = 'n' then
        match stripExact ("ull".toList) rest with
        | some r => some (.null, r)
        | none => none
      else
        match parseJsonNumber (c :: rest) with
        | some (lex, r) => some (.num lex, r)
        | none => none

/-- Array elements after `[`; `first` is true before any element. -/
def parseJsonElems (fuel : ℕ) (s : Str) (first : Bool) (acc : List JValue) :
    Option (JValue × Str) :=
  match fuel with
  | 0 => none
  | fuel'+1 =>
    let s1 := s.dropWhile isJsonWs
    match s1 with
    | ']' :: r => if first then some (.arr acc, r) else none
    | _ =>
      match parseJsonVal fuel' s1 with
      | none => none
      | some (v, r1) =>
        let r2 := r1.dropWhile isJsonWs
        match r2 with
        | ',' :: r3 => parseJsonElems fuel' r3 false (acc ++ [v])
        | ']' :: r3 => some (.arr (acc ++ [v]), r3)
        | _ => none

/-- Object members after the opening brace; `first` is true before any
member. -/
def parseJsonFields (fuel : ℕ) (s : Str) (first : Bool)
    (acc : List (Str × JValue)) : Option (JValue × Str) :=
  match fuel with
  | 0 => none
  | fuel'+1 =>
    let s1 := s.dropWhile isJsonWs
    match s1 with
    | '\x7d' :: r => if first then some (.obj acc, r) else none
    | '"' :: rest =>
      match parseJsonStr (rest.length + 1) rest with
      | none => none
      | some (key, r1) =>
        let r2 := r1.dropWhile isJsonWs
        match r2 with
        | ':' :: r3 =>
          match parseJsonVal fuel' r3 with
          | none => none
          | some (v, r4) =>
            let r5 := r4.dropWhile isJsonWs
            match r5 with
            | ',' :: r6 => parseJsonFields fuel' r6 false (acc ++ [(key, v)])
            | '\x7d' :: r6 => some (.obj (acc ++ [(key, v)]), r6)
            | _ => none
        | _ => none
    | _ => none

end

/-- Model of `JSON.parse`: succeeds when the whole text is one JSON value. -/
def jsonParse (s : Str) : Option JValue :=
  match parseJsonVal (2 * s.length + 2) s with
  | some (v, r) => if (r.dropWhile isJsonWs).isEmpty then some v else none
  | none => none

/-- Field lookup on a parsed JSON object; later duplicate keys win, as for
JavaScript object literals. -/
def lookupField (fields : List (Str × JValue)) (key : Str) : Option JValue :=
  match fields.reverse.find? (fun f => f.1 == key) with
  | some f => some f.2
  | none => none

/-- Model of `.filter((v): v is string => typeof v === "string")`. -/
def stringElems (xs : List JValue) : List Str :=
  xs.filterMap (fun v => match v with | .str s => some s | _ => none)

/-- The regex `/```(?:json)?\s*([\s\S]*?)```/i`: the inner content of the
first fenced block (the optional tag and following whitespace skipped). -/
def fencedInner (s : Str) : Option Str :=
  match splitFirst fenceMarker s with
  | none => none
  | some (_, afterOpen) =>
    let t1 := match ciStrip ("json".toList) afterOpen with
      | some r => r
      | none => afterOpen
    let t2 := t1.dropWhile isWsChar
    match splitFirst fenceMarker t2 with
    | none => none
    | some (inner, _) => some inner

/-- One iteration of the attempt loop in `parseStructuredResponse`: skip
empty text, try `JSON.parse`, and accept either a JSON array or a JSON
object whose `messages` field is an array, keeping string elements only. -/
def tryStructured (candidate : Str) : Option (List Str) :=
  if candidate.isEmpty then none
  else
    match jsonParse candidate with
    | none => none
    | some (.arr xs) => some (stringElems xs)
    | some (.obj fields) =>
      match lookupField fields ("messages".toList) with
      | some (.arr xs) => some (stringElems xs)
      | _ => none
    | some _ => none

/-- Model of `parseStructuredResponse` from `src/ollama.ts`: first the trimmed full
text, then the inner content of a fenced block. -/
def parseStructuredResponse (raw : Str) : Option (List Str) :=
  match tryStructured (trimStr raw) with
  | some r => some r
  | none =>
    match fencedInner raw with
    | some inner => tryStructured (trimStr inner)
    | none => none

/-- The pre-deduplication candidate list computed by `parseResponse` once
the text is known to be non-empty after think-block stripping. -/
def candidateLines (cleaned : Str) (hasBody : Bool) : List Str :=
  match parseStructuredResponse cleaned with
  | some structured => (structured.map cleanCandidate).filter (fun c => !c.isEmpty)
  | none =>
    if hasBody then ((splitBlocks cleaned).map cleanCandidate).filter (fun c => !c.isEmpty)
    else ((splitNl cleaned).map cleanCandidate).filter (fun c => !c.isEmpty)

/-- Model of `parseResponse` from `src/ollama.ts`. -/
def parseResponse (raw : Str) (hasBody : Bool) : List Str :=
  if raw.isEmpty || (trimStr raw).isEmpty then []
  else
    let cleaned := trimStr (stripThinkBlocks raw)
    if cleaned.isEmpty then []
    else (dedupeCandidates (candidateLines cleaned hasBody)).take 3

/-- Outcome of one backend HTTP round-trip, as consumed by `callOllama`. -/
inductive BackendOutcome where
  | transportFail
  | httpError
  | badBody
  | ok (text : Str)
deriving DecidableEq

/-- What `callOllama` does with one outcome: `process.exit(1)` on a
transport failure and on a non-success status, an exception while decoding
the body (propagated to the caller), or the response text. -/
inductive CallOut where
  | fatalConnect
  | fatalHttp
  | thrown
  | text (s : Str)
deriving DecidableEq

/-- Model of `callOllama` from `src/ollama.ts`. -/
def callOllama : BackendOutcome → CallOut
  | .transportFail => .fatalConnect
  | .httpError => .fatalHttp
  | .badBody => .thrown
  | .ok t => .text t

/-- One record per backend request issued: the fields of `GenerateRequest`
that vary, whether the call is a repair call (which has no `format`
field), and — for a primary request — the pool size when it was issued
(`poolBefore` is 0 on repair requests). -/
structure LogEntry where
  isRepair : Bool
  model : Str
  system : Str
  prompt : Str
  hasFormat : Bool
  temperature : ℚ
  num_predict : ℕ
  repeat_penalty : ℚ
  poolBefore : ℕ
deriving DecidableEq

/-- The distinct fatal `process.exit(1)` conditions on the generation path. -/
inductive ExitCond where
  | connectError
  | httpError
  | emptyOrInvalid
deriving DecidableEq

/-- Result of one whole controller invocation. -/
inductive RunResult where
  | exited (e : ExitCond)
  | crashed
  | done (msgs : List Str)
deriving DecidableEq

/-- Result of an intermediate stage, threading the index of the next
backend response and the request log. -/
inductive StepResult (α : Type) where
  | ok (val : α) (idx : ℕ) (log : List LogEntry)
  | fatal (e : ExitCond) (log : List LogEntry)
  | crash (log : List LogEntry)
deriving DecidableEq

def StepResult.val? {α : Type} : StepResult α → Option α
  | .ok v _ _ => some v
  | _ => none

def StepResult.logOf {α : Type} : StepResult α → List LogEntry
  | .ok _ _ log => log
  | .fatal _ log => log
  | .crash log => log

def shortenSystemText : Str :=
  "You shorten Git commit messages. Return only the shortened message. No commentary.".toList

def shortenUserText (message : Str) : Str :=
  ("Shorten the following Git commit message to <= 72 characters without losing meaning. Return ONLY the shortened message, nothing else.\n\n".toList) ++ message

/-- The request of primary attempt `attempt`: temperature
`0.2 + attempt * 0.2`, token budget by mode, repetition penalty 1.1, and
the JSON schema as `format`. -/
def primaryEntry (model system prompt : Str) (hasBody : Bool)
    (attempt poolLen : ℕ) : LogEntry :=
  { isRepair := false
    model := model
    system := system
    prompt := prompt
    hasFormat := true
    temperature := 0.2 + (attempt : ℚ) * 0.2
    num_predict := if hasBody then 400 else 300
    repeat_penalty := 1.1
    poolBefore := poolLen }

/-- The request issued by `validateSubjectLength` for one over-length
message: temperature 0.1, 80 tokens, no `format` field. -/
def shortenEntry (model message : Str) : LogEntry :=
  { isRepair := true
    model := model
    system := shortenSystemText
    prompt := shortenUserText message
    hasFormat := false
    temperature := 0.1
    num_predict := 80
    repeat_penalty := 1.1
    poolBefore := 0 }

/-- Model of `message.slice(0, 69) + "..."`. -/
def truncateMsg (message : Str) : Str := message.take 69 ++ "...".toList

/-- Model of `validateSubjectLength` from `src/ollama.ts`: a message within 72
characters passes through; otherwise one repair request is issued.  An
exception from the call is caught and falls through to truncation, as does
an empty or still over-length repair result; `process.exit` inside
`callOllama` is not catchable and aborts the whole run. -/
def validateSubjectLengthStep (model : Str) (responses : ℕ → BackendOutcome)
    (message : Str) (idx : ℕ) (log : List LogEntry) : StepResult Str :=
  if message.length ≤ 72 then .ok message idx log
  else
    let log' := log ++ [shortenEntry model message]
    match callOllama (responses idx) with
    | .fatalConnect => .fatal .connectError log'
    | .fatalHttp => .fatal .httpError log'
    | .thrown => .ok (truncateMsg message) (idx + 1) log'
    | .text raw =>
      let shortened := cleanCandidate raw
      if !shortened.isEmpty && decide (shortened.length ≤ 72) then
        .ok shortened (idx + 1) log'
      else .ok (truncateMsg message) (idx + 1) log'

/-- Model of `validateBodySubjectLength` from `src/ollama.ts`: repairs only the
first line (when non-empty and over-length) and reassembles the remaining
lines in order.  `splitNl` never returns `[]`; that arm is unreachable. -/
def validateBodySubjectLengthStep (model : Str) (responses : ℕ → BackendOutcome)
    (message : Str) (idx : ℕ) (log : List LogEntry) : StepResult Str :=
  match splitNl message with
  | [] => .ok message idx log
  | subject :: rest =>
    if subject.isEmpty || decide (subject.length ≤ 72) then .ok message idx log
    else
      match validateSubjectLengthStep model responses subject idx log with
      | .ok shortened idx' log' => .ok (joinNl (shortened :: rest)) idx' log'
      | .fatal e l => .fatal e l
      | .crash l => .crash l

/-- The repair pass over the final pool.  The source awaits
`Promise.all(candidates.map(...))`; the fetches are started in candidate
order, so backend responses are consumed in pool order here. -/
def repairAll (model : Str) (hasBody : Bool) (responses : ℕ → BackendOutcome) :
    List Str → ℕ → List LogEntry → StepResult (List Str)
  | [], idx, log => .ok [] idx log
  | c :: cs, idx, log =>
    match (if hasBody then validateBodySubjectLengthStep model responses c idx log
           else validateSubjectLengthStep model responses c idx log) with
    | .ok c' idx' log' =>
      match repairAll model hasBody responses cs idx' log' with
      | .ok cs' idx'' log'' => .ok (c' :: cs') idx'' log''
      | .fatal e l => .fatal e l
      | .crash l => .crash l
    | .fatal e l => .fatal e l
    | .crash l => .crash l

/-- The merge step of the retry loop:
`if (!candidates.includes(c)) candidates.push(c)` — exact membership. -/
def mergeCandidates (pool : List Str) (parsed : List Str) : List Str :=
  parsed.foldl (fun acc c => if c ∈ acc then acc else acc ++ [c]) pool

/-- The retry loop of `generateCommitMessages`: up to `fuel` further
attempts starting at attempt index `attempt`, stopping early once the
pool holds 3 members. -/
def attemptLoop (systemPrompt userPrompt model : Str) (hasBody : Bool)
    (responses : ℕ → BackendOutcome) :
    ℕ → ℕ → List Str → ℕ → List LogEntry → StepResult (List Str)
  | 0, _, pool, idx, log => .ok pool idx log
  | fuel+1, attempt, pool, idx, log =>
    if pool.length < 3 then
      let log' := log ++ [primaryEntry model systemPrompt userPrompt hasBody attempt pool.length]
      match callOllama (responses idx) with
      | .fatalConnect => .fatal .connectError log'
      | .fatalHttp => .fatal .httpError log'
      | .thrown => .crash log'
      | .text raw =>
        let parsed := filterValidCommitMessages (parseResponse raw hasBody) hasBody
        attemptLoop systemPrompt userPrompt model hasBody responses fuel (attempt + 1)
          (mergeCandidates pool parsed) (idx + 1) log'
    else .ok pool idx log

/-- Model of `generateCommitMessages` from `src/ollama.ts`, with the backend
modelled as a function from call index to outcome.  Returns the run result
together with the list of requests issued. -/
def generateCommitMessages (systemPrompt userPrompt model : Str)
    (hasBody : Bool) (responses : ℕ → BackendOutcome) :
    RunResult × List LogEntry :=
  match attemptLoop systemPrompt userPrompt model hasBody responses 3 0 [] 0 [] with
  | .fatal e log => (.exited e, log)
  | .crash log => (.crashed, log)
  | .ok pool idx log =>
    if (pool.take 3).isEmpty then (.exited .emptyOrInvalid, log)
    else
      match repairAll model hasBody responses (pool.take 3) idx log with
      | .ok cands _ log' => (.done cands, log')
      | .fatal e log' => (.exited e, log')
      | .crash log' => (.crashed, log')

/-- The first line of a message. -/
def firstLine (s : Str) : Str := s.takeWhile (fun c => c != '\n')

/-- The first list member equal to `y` under case-insensitive comparison. -/
def firstMatchCI : List Str → Str → Option Str
  | [], _ => none
  | c :: cs, y => if toLowerStr c = toLowerStr y then some c else firstMatchCI cs y

theorem splitNl_ne_nil (s : Str) : splitNl s ≠ [] := by
  cases s with
  | nil => simp [splitNl]
  | cons c rest =>
    simp only [splitNl]
    cases h : splitNl rest with
    | nil => simp
    | cons g gs => by_cases hc : c = '\n' <;> simp [hc]

theorem splitNl_eq_firstLine_cons (s : Str) :
    ∃ gs, splitNl s = firstLine s :: gs := by
  induction s with
  | nil => exact ⟨[], rfl⟩
  | cons c rest ih =>
    obtain ⟨gs, hg⟩ := ih
    by_cases hc : c = '\n'
    · subst hc
      exact ⟨firstLine rest :: gs, by simp [splitNl, hg, firstLine, List.takeWhile_cons]⟩
    · exact ⟨gs, by simp [splitNl, hg, firstLine, List.takeWhile_cons, hc]⟩

theorem splitNl_no_nl (s : Str) : ∀ p ∈ splitNl s, '\n' ∉ p := by
  induction s with
  | nil =>
    intro p hp
    simp [splitNl] at hp
    simp [hp]
  | cons c rest ih =>
    intro p hp
    rcases h : splitNl rest with _ | ⟨g, gs⟩
    · exact absurd h (splitNl_ne_nil rest)
    · rw [splitNl, h] at hp
      by_cases hc : c = '\n'
      · simp [hc] at hp
        rcases hp with hp | hp
        · simp [hp]
        · exact ih p (by rw [h]; exact List.mem_cons.mpr hp)
      · simp [hc] at hp
        rcases hp with hp | hp
        · subst hp
          intro hmem
          rcases List.mem_cons.mp hmem with h1 | h1
          · exact hc h1.symm
          · exact ih g (by rw [h]; exact List.mem_cons_self g gs) h1
        · exact ih p (by rw [h]; exact List.mem_cons_of_mem g hp)

theorem splitNl_of_no_nl (s : Str) (h : '\n' ∉ s) : splitNl s = [s] := by
  induction s with
  | nil => rfl
  | cons c rest ih =>
    have hc : c ≠ '\n' := fun hcc => h (hcc ▸ List.mem_cons_self c rest)
    have hr : '\n' ∉ rest := fun hm => h (List.mem_cons_of_mem c hm)
    rw [splitNl, ih hr]
    simp [hc]

theorem splitNl_length_one (s : Str) (h : (splitNl s).length = 1) : '\n' ∉ s := by
  induction s with
  | nil => simp
  | cons c rest ih =>
    rcases hr : splitNl rest with _ | ⟨g, gs⟩
    · exact absurd hr (splitNl_ne_nil rest)
    · rw [splitNl, hr] at h
      by_cases hc : c = '\n'
      · simp [hc] at h
      · simp only [hc, if_false] at h
        simp only [List.length_cons] at h
        intro hm
        rcases List.mem_cons.mp hm with h1 | h1
        · exact hc h1.symm
        · exact ih (by rw [hr]; simpa using h) h1

theorem splitNl_append_nl (a b : Str) :
    splitNl (a ++ '\n' :: b) = splitNl a ++ splitNl b := by
  induction a with
  | nil =>
    rcases hb : splitNl b with _ | ⟨g, gs⟩
    · exact absurd hb (splitNl_ne_nil b)
    · simp [splitNl, hb]
  | cons c aRest ih =>
    rcases hg : splitNl aRest with _ | ⟨g, gs⟩
    · exact absurd hg (splitNl_ne_nil aRest)
    · have hg2 : splitNl (aRest ++ '\n' :: b) = g :: (gs ++ splitNl b) := by
        rw [ih, hg]; rfl
      by_cases hc : c = '\n'
      · simp [splitNl, hg2, hg, hc]
      · simp [splitNl, hg2, hg, hc]

theorem joinNl_cons_ne (l : Str) (ls : List Str) (h : ls ≠ []) :
    joinNl (l :: ls) = l ++ '\n' :: joinNl ls := by
  cases ls with
  | nil => exact absurd rfl h
  | cons x xs => rfl

theorem splitNl_joinNl (L : List Str) (hne : L ≠ [])
    (h : ∀ p ∈ L, '\n' ∉ p) : splitNl (joinNl L) = L := by
  induction L with
  | nil => exact absurd rfl hne
  | cons l ls ih =>
    cases ls with
    | nil =>
      show splitNl (joinNl [l]) = [l]
      have : joinNl [l] = l := rfl
      rw [this]
      exact splitNl_of_no_nl l (h l (List.mem_cons_self l []))
    | cons x xs =>
      rw [joinNl_cons_ne l (x :: xs) (by simp), splitNl_append_nl,
        splitNl_of_no_nl l (h l (List.mem_cons_self l (x :: xs))),
        ih (by simp) (fun p hp => h p (List.mem_cons_of_mem l hp))]
      rfl

theorem firstLine_append_nl (x t : Str) : firstLine (x ++ '\n' :: t) = firstLine x := by
  induction x with
  | nil => simp [firstLine, List.takeWhile_cons]
  | cons c xr ih =>
    by_cases hc : c = '\n'
    · simp [firstLine, List.takeWhile_cons, hc]
    · simp only [firstLine, List.cons_append, List.takeWhile_cons] at *
      simp [hc, ih]

theorem firstLine_length_le (s : Str) : (firstLine s).length ≤ s.length := by
  induction s with
  | nil => simp [firstLine]
  | cons c rest ih =>
    by_cases hc : c = '\n'
    · simp [firstLine, List.takeWhile_cons, hc]
    · simp only [firstLine, List.takeWhile_cons] at *
      simp only [bne_iff_ne, ne_eq]
      rw [if_pos hc]
      simp only [List.length_cons]
      omega

theorem truncateMsg_length_le (m : Str) : (truncateMsg m).length ≤ 72 := by
  simp only [truncateMsg, List.length_append, List.length_take]
  have h3 : (("...".toList : Str)).length = 3 := rfl
  rw [h3]
  omega

theorem truncateMsg_no_nl (m : Str) (h : '\n' ∉ m) : '\n' ∉ truncateMsg m := by
  intro hm
  rcases List.mem_append.mp hm with h1 | h1
  · exact h (List.mem_of_mem_take h1)
  · exact absurd h1 (by decide)

theorem vslStep_ok_cases (model : Str) (responses : ℕ → BackendOutcome)
    (m : Str) (idx : ℕ) (log : List LogEntry) (m' : Str) (idx' : ℕ)
    (log' : List LogEntry)
    (h : validateSubjectLengthStep model responses m idx log = .ok m' idx' log') :
    (m' = m ∧ m.length ≤ 72) ∨
    (∃ r, responses idx = .ok r ∧ m' = cleanCandidate r ∧ m'.length ≤ 72) ∨
    m' = truncateMsg m := by
  unfold validateSubjectLengthStep at h
  by_cases hlen : m.length ≤ 72
  · rw [if_pos hlen] at h
    injection h with h1 h2 h3
    exact Or.inl ⟨h1.symm, hlen⟩
  · rw [if_neg hlen] at h
    rcases hro : responses idx with _ | _ | _ | r <;> rw [hro] at h <;>
      simp only [callOllama] at h
    · exact StepResult.noConfusion h
    · exact StepResult.noConfusion h
    · injection h with h1 h2 h3
      exact Or.inr (Or.inr h1.symm)
    · by_cases hcond :
        (!(cleanCandidate r).isEmpty && decide ((cleanCandidate r).length ≤ 72)) = true
      · rw [if_pos hcond] at h
        injection h with h1 h2 h3
        simp only [Bool.and_eq_true, decide_eq_true_eq] at hcond
        exact Or.inr (Or.inl ⟨r, rfl, h1.symm, h1 ▸ hcond.2⟩)
      · rw [if_neg hcond] at h
        injection h with h1 h2 h3
        exact Or.inr (Or.inr h1.symm)

theorem vslStep_ok_len (model : Str) (responses : ℕ → BackendOutcome)
    (m : Str) (idx : ℕ) (log : List LogEntry) (m' : Str) (idx' : ℕ)
    (log' : List LogEntry)
    (h : validateSubjectLengthStep model responses m idx log = .ok m' idx' log') :
    m'.length ≤ 72 := by
  rcases vslStep_ok_cases model responses m idx log m' idx' log' h with
    ⟨h1, h2⟩ | ⟨r, _, h1, h2⟩ | h1
  · exact h1 ▸ h2
  · exact h2
  · exact h1 ▸ truncateMsg_length_le m

theorem vbslStep_ok_cases (model : Str) (responses : ℕ → BackendOutcome)
    (m : Str) (idx : ℕ) (log : List LogEntry) (m' : Str) (idx' : ℕ)
    (log' : List LogEntry)
    (h : validateBodySubjectLengthStep model responses m idx log = .ok m' idx' log') :
    (m' = m ∧
      ((firstLine m).isEmpty = true ∨ (firstLine m).length ≤ 72)) ∨
    ∃ rest short idx2 log2,
      splitNl m = firstLine m :: rest ∧
      validateSubjectLengthStep model responses (firstLine m) idx log =
        .ok short idx2 log2 ∧
      m' = joinNl (short :: rest) := by
  unfold validateBodySubjectLengthStep at h
  split at h
  next heq => exact absurd heq (splitNl_ne_nil m)
  next subject rest heq =>
    have hsubj : subject = firstLine m := by
      obtain ⟨gs, hg⟩ := splitNl_eq_firstLine_cons m
      rw [heq] at hg
      exact (List.cons.injEq _ _ _ _ ▸ hg).1
    split at h
    next hcond =>
      injection h with h1 h2 h3
      simp only [Bool.or_eq_true, decide_eq_true_eq] at hcond
      exact Or.inl ⟨h1.symm, by rw [← hsubj]; exact hcond⟩
    next hcond =>
      split at h
      next short i2 l2 hv =>
        injection h with h1 h2 h3
        exact Or.inr ⟨rest, short, i2, l2, hsubj ▸ heq, hsubj ▸ hv, h1.symm⟩
      next e l2 hv => exact StepResult.noConfusion h
      next l2 hv => exact StepResult.noConfusion h

theorem firstLine_joinNl_cons (x : Str) (rest : List Str) :
    firstLine (joinNl (x :: rest)) = firstLine x := by
  cases rest with
  | nil => rfl
  | cons y ys => rw [joinNl_cons_ne x (y :: ys) (by simp), firstLine_append_nl]

theorem vbslStep_ok_firstLine (model : Str) (responses : ℕ → BackendOutcome)
    (m : Str) (idx : ℕ) (log : List LogEntry) (m' : Str) (idx' : ℕ)
    (log' : List LogEntry)
    (h : validateBodySubjectLengthStep model responses m idx log = .ok m' idx' log') :
    (firstLine m').length ≤ 72 := by
  rcases vbslStep_ok_cases model responses m idx log m' idx' log' h with
    ⟨h1, h2 | h2⟩ | ⟨rest, short, idx2, log2, hsp, hv, hm⟩
  · subst h1
    rw [List.isEmpty_iff] at h2
    rw [h2]
    simp
  · exact h1 ▸ h2
  · rw [hm, firstLine_joinNl_cons]
    calc (firstLine short).length ≤ short.length := firstLine_length_le short
      _ ≤ 72 := vslStep_ok_len model responses (firstLine m) idx log short idx2 log2 hv

theorem repairStep_ok_firstLine (model : Str) (hb : Bool)
    (responses : ℕ → BackendOutcome) (m : Str) (idx : ℕ) (log : List LogEntry)
    (m' : Str) (idx' : ℕ) (log' : List LogEntry)
    (h : (if hb then validateBodySubjectLengthStep model responses m idx log
          else validateSubjectLengthStep model responses m idx log) =
         .ok m' idx' log') :
    (firstLine m').length ≤ 72 := by
  cases hb with
  | true =>
    rw [if_pos rfl] at h
    exact vbslStep_ok_firstLine model responses m idx log m' idx' log' h
  | false =>
    rw [if_neg (by simp)] at h
    calc (firstLine m').length ≤ m'.length := firstLine_length_le m'
      _ ≤ 72 := vslStep_ok_len model responses m idx log m' idx' log' h

theorem repairAll_ok_len (model : Str) (hb : Bool)
    (responses : ℕ → BackendOutcome) :
    ∀ (cs : List Str) (idx : ℕ) (log : List LogEntry) (cs' : List Str)
      (idx' : ℕ) (log' : List LogEntry),
      repairAll model hb responses cs idx log = .ok cs' idx' log' →
      cs'.length = cs.length := by
  intro cs
  induction cs with
  | nil =>
    intro idx log cs' idx' log' h
    injection h with h1 h2 h3
    rw [← h1]
  | cons c cs ih =>
    intro idx log cs' idx' log' h
    unfold repairAll at h
    split at h
    next c2 i2 l2 hs =>
      split at h
      next cs2 i3 l3 hr =>
        injection h with h1 h2 h3
        rw [← h1, List.length_cons, List.length_cons, ih i2 l2 cs2 i3 l3 hr]
      next e3 l3 hr => exact StepResult.noConfusion h
      next l3 hr => exact StepResult.noConfusion h
    next e l2 hs => exact StepResult.noConfusion h
    next l2 hs => exact StepResult.noConfusion h

theorem repairAll_ok_mem (model : Str) (hb : Bool)
    (responses : ℕ → BackendOutcome) :
    ∀ (cs : List Str) (idx : ℕ) (log : List LogEntry) (cs' : List Str)
      (idx' : ℕ) (log' : List LogEntry),
      repairAll model hb responses cs idx log = .ok cs' idx' log' →
      ∀ m' ∈ cs', ∃ m i l i2 l2, m ∈ cs ∧
        (if hb then validateBodySubjectLengthStep model responses m i l
         else validateSubjectLengthStep model responses m i l) = .ok m' i2 l2 := by
  intro cs
  induction cs with
  | nil =>
    intro idx log cs' idx' log' h m' hm'
    injection h with h1 h2 h3
    rw [← h1] at hm'
    exact absurd hm' (List.not_mem_nil m')
  | cons c cs ih =>
    intro idx log cs' idx' log' h m' hm'
    unfold repairAll at h
    split at h
    next c2 i2 l2 hs =>
      split at h
      next cs2 i3 l3 hr =>
        injection h with h1 h2 h3
        rw [← h1] at hm'
        rcases List.mem_cons.mp hm' with h4 | h4
        · exact ⟨c, idx, log, i2, l2, List.mem_cons_self c cs, h4 ▸ hs⟩
        · obtain ⟨m, i, l, i4, l4, hmem, hstep⟩ := ih i2 l2 cs2 i3 l3 hr m' h4
          exact ⟨m, i, l, i4, l4, List.mem_cons_of_mem c hmem, hstep⟩
      next e3 l3 hr => exact StepResult.noConfusion h
      next l3 hr => exact StepResult.noConfusion h
    next e l2 hs => exact StepResult.noConfusion h
    next l2 hs => exact StepResult.noConfusion h

theorem gen_done_inv (sys usr model : Str) (hb : Bool)
    (responses : ℕ → BackendOutcome) (l : List Str)
    (h : (generateCommitMessages sys usr model hb responses).1 = RunResult.done l) :
    ∃ pool idx log1 idx2 log2,
      attemptLoop sys usr model hb responses 3 0 [] 0 [] = .ok pool idx log1 ∧
      (pool.take 3).isEmpty = false ∧
      repairAll model hb responses (pool.take 3) idx log1 = .ok l idx2 log2 := by
  unfold generateCommitMessages at h
  split at h
  next e log1 ha => exact absurd h (by simp)
  next log1 ha => exact absurd h (by simp)
  next pool idx log1 ha =>
    by_cases hemp : (pool.take 3).isEmpty = true
    · rw [if_pos hemp] at h
      exact absurd h (by simp)
    · rw [if_neg hemp] at h
      split at h
      next cands i2 l2 hr =>
        have hcl : cands = l := by
          simp only at h
          injection h
        exact ⟨pool, idx, log1, i2, l2, ha, (Bool.not_eq_true _) ▸ hemp, hcl ▸ hr⟩
      next e2 l2 hr => exact absurd h (by simp)
      next l2 hr => exact absurd h (by simp)

/-- C1: every invocation of the generation controller that returns (in
either mode, for any sequence of backend responses) returns a list of 1 to
3 candidates, and every member's first line is at most 72 characters long. -/
theorem c1_controller_output_contract (sys usr model : Str) (hb : Bool)
    (responses : ℕ → BackendOutcome) (l : List Str)
    (h : (generateCommitMessages sys usr model hb responses).1 = RunResult.done l) :
    1 ≤ l.length ∧ l.length ≤ 3 ∧ ∀ m ∈ l, (firstLine m).length ≤ 72 := by
  obtain ⟨pool, idx, log1, idx2, log2, ha, hne, hr⟩ :=
    gen_done_inv sys usr model hb responses l h
  have hlen := repairAll_ok_len model hb responses (pool.take 3) idx log1 l idx2 log2 hr
  have hpos : (pool.take 3) ≠ [] := by
    intro hz
    rw [hz] at hne
    simp at hne
  refine ⟨?_, ?_, ?_⟩
  · rw [hlen]
    exact List.length_pos.mpr hpos
  · rw [hlen, List.length_take]
    exact Nat.min_le_left _ _
  · intro m hm
    obtain ⟨m0, i, lg, i2, lg2, _hmem, hstep⟩ :=
      repairAll_ok_mem model hb responses (pool.take 3) idx log1 l idx2 log2 hr m hm
    exact repairStep_ok_firstLine model hb responses m0 i lg m i2 lg2 hstep

/-- Witness for C1: a concrete run that returns one short candidate. -/
theorem c1_controller_output_contract_witness :
    1 ≤ [("Fix parser".toList : Str)].length ∧
    [("Fix parser".toList : Str)].length ≤ 3 ∧
    ∀ m ∈ [("Fix parser".toList : Str)], (firstLine m).length ≤ 72 :=
  c1_controller_output_contract [] [] [] false
    (fun _ => BackendOutcome.ok ("Fix parser".toList)) [("Fix parser".toList)]
    (by decide)

/-- C5: if every attempt yields zero valid candidates, the controller exits
fatally with the empty-or-invalid condition and has issued exactly the 3
budgeted backend calls (in particular no repair calls). -/
theorem c5_empty_pool_fatal (sys usr model : Str) (hb : Bool)
    (responses : ℕ → BackendOutcome)
    (h : ∀ k, k < 3 → ∃ r, responses k = BackendOutcome.ok r ∧
      filterValidCommitMessages (parseResponse r hb) hb = []) :
    (generateCommitMessages sys usr model hb responses).1 =
      RunResult.exited ExitCond.emptyOrInvalid ∧
    (generateCommitMessages sys usr model hb responses).2.length = 3 := by
  obtain ⟨r0, h0, hv0⟩ := h 0 (by omega)
  obtain ⟨r1, h1, hv1⟩ := h 1 (by omega)
  obtain ⟨r2, h2, hv2⟩ := h 2 (by omega)
  have hloop : attemptLoop sys usr model hb responses 3 0 [] 0 [] =
      .ok [] 3 [primaryEntry model sys usr hb 0 0, primaryEntry model sys usr hb 1 0,
        primaryEntry model sys usr hb 2 0] := by
    simp [attemptLoop, h0, h1, h2, hv0, hv1, hv2, callOllama, mergeCandidates]
  constructor
  · simp [generateCommitMessages, hloop]
  · simp [generateCommitMessages, hloop]

/-- Witness for C5: a backend that always answers with empty text. -/
theorem c5_empty_pool_fatal_witness :
    (generateCommitMessages [] [] [] false (fun _ => BackendOutcome.ok [])).1 =
      RunResult.exited ExitCond.emptyOrInvalid ∧
    (generateCommitMessages [] [] [] false (fun _ => BackendOutcome.ok [])).2.length = 3 :=
  c5_empty_pool_fatal [] [] [] false (fun _ => BackendOutcome.ok [])
    (fun _ _ => ⟨[], rfl, rfl⟩)

theorem attemptLoop_log (sys usr model : Str) (hb : Bool)
    (responses : ℕ → BackendOutcome) :
    ∀ (fuel a : ℕ) (pool : List Str) (idx : ℕ) (log : List LogEntry),
      ∃ Δ, (attemptLoop sys usr model hb responses fuel a pool idx log).logOf
            = log ++ Δ ∧
        Δ.length ≤ fuel ∧
        Δ.map (fun e => e.temperature) =
          (List.range Δ.length).map (fun k : ℕ => 0.2 + ((a : ℚ) + (k : ℚ)) * 0.2) ∧
        ∀ e ∈ Δ, e.isRepair = false ∧ e.hasFormat = true ∧
          e.num_predict = (if hb then 400 else 300) ∧
          e.repeat_penalty = 1.1 ∧ e.poolBefore < 3 ∧
          e.model = model ∧ e.system = sys ∧ e.prompt = usr := by
  intro fuel
  induction fuel with
  | zero =>
    intro a pool idx log
    exact ⟨[], by simp [attemptLoop, StepResult.logOf], by simp, by simp, by simp⟩
  | succ fuel ih =>
    intro a pool idx log
    by_cases hp : pool.length < 3
    · rcases hro : responses idx with _ | _ | _ | raw
      · refine ⟨[primaryEntry model sys usr hb a pool.length], ?_, by simp, ?_, ?_⟩
        · simp [attemptLoop, hp, hro, callOllama, StepResult.logOf]
        · have h1 : List.range ([primaryEntry model sys usr hb a pool.length].length) = [0] := rfl
          rw [h1]
          simp [primaryEntry]
        · intro e he
          simp only [List.mem_singleton] at he
          subst he
          simp [primaryEntry, hp]
      · refine ⟨[primaryEntry model sys usr hb a pool.length], ?_, by simp, ?_, ?_⟩
        · simp [attemptLoop, hp, hro, callOllama, StepResult.logOf]
        · have h1 : List.range ([primaryEntry model sys usr hb a pool.length].length) = [0] := rfl
          rw [h1]
          simp [primaryEntry]
        · intro e he
          simp only [List.mem_singleton] at he
          subst he
          simp [primaryEntry, hp]
      · refine ⟨[primaryEntry model sys usr hb a pool.length], ?_, by simp, ?_, ?_⟩
        · simp [attemptLoop, hp, hro, callOllama, StepResult.logOf]
        · have h1 : List.range ([primaryEntry model sys usr hb a pool.length].length) = [0] := rfl
          rw [h1]
          simp [primaryEntry]
        · intro e he
          simp only [List.mem_singleton] at he
          subst he
          simp [primaryEntry, hp]
      · obtain ⟨Δ, hΔ, hlen, htemp, hfields⟩ :=
          ih (a + 1)
            (mergeCandidates pool
              (filterValidCommitMessages (parseResponse raw hb) hb))
            (idx + 1) (log ++ [primaryEntry model sys usr hb a pool.length])
        refine ⟨primaryEntry model sys usr hb a pool.length :: Δ, ?_,
          by simpa using hlen, ?_, ?_⟩
        · rw [attemptLoop, if_pos hp, hro]
          simp only [callOllama]
          rw [hΔ]
          simp
        · simp only [List.map_cons, List.length_cons, List.range_succ_eq_map,
            List.map_map]
          congr 1
          · simp [primaryEntry]
          · rw [htemp]
            apply List.map_congr_left
            intro k _
            simp only [Function.comp]
            push_cast
            ring
        · intro e he
          rcases List.mem_cons.mp he with h1 | h1
          · subst h1
            simp [primaryEntry, hp]
          · exact hfields e h1
    · refine ⟨[], ?_, by simp, by simp, by simp⟩
      simp [attemptLoop, hp, StepResult.logOf]

theorem vslStep_log (model : Str) (responses : ℕ → BackendOutcome)
    (m : Str) (idx : ℕ) (log : List LogEntry) :
    ∃ Δ, (validateSubjectLengthStep model responses m idx log).logOf = log ++ Δ ∧
      ∀ e ∈ Δ, e.isRepair = true := by
  unfold validateSubjectLengthStep
  by_cases hlen : m.length ≤ 72
  · rw [if_pos hlen]
    exact ⟨[], by simp [StepResult.logOf], by simp⟩
  · rw [if_neg hlen]
    refine ⟨[shortenEntry model m], ?_, ?_⟩
    · rcases responses idx with _ | _ | _ | r <;> simp only [callOllama]
      · rfl
      · rfl
      · rfl
      · split <;> rfl
    · intro e he
      simp only [List.mem_singleton] at he
      subst he
      rfl

theorem vbslStep_log (model : Str) (responses : ℕ → BackendOutcome)
    (m : Str) (idx : ℕ) (log : List LogEntry) :
    ∃ Δ, (validateBodySubjectLengthStep model responses m idx log).logOf = log ++ Δ ∧
      ∀ e ∈ Δ, e.isRepair = true := by
  unfold validateBodySubjectLengthStep
  split
  · exact ⟨[], by simp [StepResult.logOf], by simp⟩
  next subject rest _heq =>
    split
    · exact ⟨[], by simp [StepResult.logOf], by simp⟩
    · obtain ⟨Δ, hΔ, hrep⟩ := vslStep_log model responses subject idx log
      split
      next short i2 l2 hv =>
        refine ⟨Δ, ?_, hrep⟩
        rw [hv] at hΔ
        simpa [StepResult.logOf] using hΔ
      next e l2 hv =>
        refine ⟨Δ, ?_, hrep⟩
        rw [hv] at hΔ
        simpa [StepResult.logOf] using hΔ
      next l2 hv =>
        refine ⟨Δ, ?_, hrep⟩
        rw [hv] at hΔ
        simpa [StepResult.logOf] using hΔ

theorem repairAll_log (model : Str) (hb : Bool)
    (responses : ℕ → BackendOutcome) :
    ∀ (cs : List Str) (idx : ℕ) (log : List LogEntry),
      ∃ Δ, (repairAll model hb responses cs idx log).logOf = log ++ Δ ∧
        ∀ e ∈ Δ, e.isRepair = true := by
  intro cs
  induction cs with
  | nil =>
    intro idx log
    exact ⟨[], by simp [repairAll, StepResult.logOf], by simp⟩
  | cons c cs ih =>
    intro idx log
    unfold repairAll
    have hstep : ∃ Δ,
        (if hb then validateBodySubjectLengthStep model responses c idx log
         else validateSubjectLengthStep model responses c idx log).logOf
          = log ++ Δ ∧ ∀ e ∈ Δ, e.isRepair = true := by
      cases hb
      · simpa using vslStep_log model responses c idx log
      · simpa using vbslStep_log model responses c idx log
    obtain ⟨Δ1, hΔ1, hr1⟩ := hstep
    split
    next c2 i2 l2 hs =>
      rw [hs] at hΔ1
      simp only [StepResult.logOf] at hΔ1
      obtain ⟨Δ2, hΔ2, hr2⟩ := ih i2 l2
      split
      next cs2 i3 l3 hr =>
        rw [hr] at hΔ2
        simp only [StepResult.logOf] at hΔ2
        refine ⟨Δ1 ++ Δ2, ?_, ?_⟩
        · simp only [StepResult.logOf]
          rw [hΔ2, hΔ1, List.append_assoc]
        · intro e he
          rcases List.mem_append.mp he with h1 | h1
          exacts [hr1 e h1, hr2 e h1]
      next e3 l3 hr =>
        rw [hr] at hΔ2
        simp only [StepResult.logOf] at hΔ2
        refine ⟨Δ1 ++ Δ2, ?_, ?_⟩
        · simp only [StepResult.logOf]
          rw [hΔ2, hΔ1, List.append_assoc]
        · intro e he
          rcases List.mem_append.mp he with h1 | h1
          exacts [hr1 e h1, hr2 e h1]
      next l3 hr =>
        rw [hr] at hΔ2
        simp only [StepResult.logOf] at hΔ2
        refine ⟨Δ1 ++ Δ2, ?_, ?_⟩
        · simp only [StepResult.logOf]
          rw [hΔ2, hΔ1, List.append_assoc]
        · intro e he
          rcases List.mem_append.mp he with h1 | h1
          exacts [hr1 e h1, hr2 e h1]
    next e l2 hs =>
      rw [hs] at hΔ1
      simp only [StepResult.logOf] at hΔ1
      exact ⟨Δ1, by simp only [StepResult.logOf]; exact hΔ1, hr1⟩
    next l2 hs =>
      rw [hs] at hΔ1
      simp only [StepResult.logOf] at hΔ1
      exact ⟨Δ1, by simp only [StepResult.logOf]; exact hΔ1, hr1⟩

theorem gen_log_split (sys usr model : Str) (hb : Bool)
    (responses : ℕ → BackendOutcome) :
    ∃ Δa Δr, (generateCommitMessages sys usr model hb responses).2 = Δa ++ Δr ∧
      Δa.length ≤ 3 ∧
      Δa.map (fun e => e.temperature) =
        (List.range Δa.length).map (fun k : ℕ => 0.2 + ((0 : ℚ) + (k : ℚ)) * 0.2) ∧
      (∀ e ∈ Δa, e.isRepair = false ∧ e.hasFormat = true ∧
        e.num_predict = (if hb then 400 else 300) ∧
        e.repeat_penalty = 1.1 ∧ e.poolBefore < 3 ∧
        e.model = model ∧ e.system = sys ∧ e.prompt = usr) ∧
      (∀ e ∈ Δr, e.isRepair = true) := by
  obtain ⟨Δa, hΔa, hlen, htemp, hfields⟩ :=
    attemptLoop_log sys usr model hb responses 3 0 [] 0 []
  unfold generateCommitMessages
  split
  next e log1 ha =>
    rw [ha] at hΔa
    simp only [StepResult.logOf, List.nil_append] at hΔa
    exact ⟨Δa, [], by simp [hΔa], hlen, htemp, hfields, by simp⟩
  next log1 ha =>
    rw [ha] at hΔa
    simp only [StepResult.logOf, List.nil_append] at hΔa
    exact ⟨Δa, [], by simp [hΔa], hlen, htemp, hfields, by simp⟩
  next pool idx log1 ha =>
    rw [ha] at hΔa
    simp only [StepResult.logOf, List.nil_append] at hΔa
    by_cases hemp : (pool.take 3).isEmpty = true
    · rw [if_pos hemp]
      exact ⟨Δa, [], by simp [hΔa], hlen, htemp, hfields, by simp⟩
    · rw [if_neg hemp]
      obtain ⟨Δr, hΔr, hrep⟩ := repairAll_log model hb responses (pool.take 3) idx log1
      split
      next cands i2 l2 hr =>
        rw [hr] at hΔr
        simp only [StepResult.logOf] at hΔr
        exact ⟨Δa, Δr, by simp only; rw [hΔr, hΔa], hlen, htemp, hfields, hrep⟩
      next e2 l2 hr =>
        rw [hr] at hΔr
        simp only [StepResult.logOf] at hΔr
        exact ⟨Δa, Δr, by simp only; rw [hΔr, hΔa], hlen, htemp, hfields, hrep⟩
      next l2 hr =>
        rw [hr] at hΔr
        simp only [StepResult.logOf] at hΔr
        exact ⟨Δa, Δr, by simp only; rw [hΔr, hΔa], hlen, htemp, hfields, hrep⟩

/-- C8: for every invocation the retry loop issues at most 3 primary
requests; the k-th primary request runs at temperature `0.2 + 0.2 * k`,
with token budget 300 (single-line) or 400 (subject+body) and repetition
penalty 1.1, and a primary request is only ever issued while the pool
holds fewer than 3 members. -/
theorem c8_retry_schedule (sys usr model : Str) (hb : Bool)
    (responses : ℕ → BackendOutcome) :
    ((generateCommitMessages sys usr model hb responses).2.filter
        (fun e => !e.isRepair)).length ≤ 3 ∧
    ((generateCommitMessages sys usr model hb responses).2.filter
        (fun e => !e.isRepair)).map (fun e => e.temperature) =
      (List.range ((generateCommitMessages sys usr model hb responses).2.filter
        (fun e => !e.isRepair)).length).map (fun k : ℕ => 0.2 + 0.2 * (k : ℚ)) ∧
    ∀ e ∈ (generateCommitMessages sys usr model hb responses).2.filter
        (fun e => !e.isRepair),
      e.hasFormat = true ∧ e.num_predict = (if hb then 400 else 300) ∧
      e.repeat_penalty = 1.1 ∧ e.poolBefore < 3 := by
  obtain ⟨Δa, Δr, hsplit, hlen, htemp, hfieldsA, hrepR⟩ :=
    gen_log_split sys usr model hb responses
  have hfa : Δa.filter (fun e => !e.isRepair) = Δa :=
    List.filter_eq_self.mpr (fun e he => by rw [(hfieldsA e he).1]; rfl)
  have hfr : Δr.filter (fun e => !e.isRepair) = [] := by
    rw [List.filter_eq_nil_iff]
    intro e he
    rw [hrepR e he]
    simp
  rw [hsplit, List.filter_append, hfa, hfr, List.append_nil]
  refine ⟨hlen, ?_, fun e he =>
    ⟨(hfieldsA e he).2.1, (hfieldsA e he).2.2.1,
     (hfieldsA e he).2.2.2.1, (hfieldsA e he).2.2.2.2.1⟩⟩
  rw [htemp]
  apply List.map_congr_left
  intro k _
  ring

/-- Witness for C8: the primary-request count at a concrete script. -/
theorem c8_retry_schedule_witness :
    ((generateCommitMessages [] [] [] false (fun _ => BackendOutcome.ok [])).2.filter
        (fun e => !e.isRepair)).length ≤ 3 :=
  (c8_retry_schedule [] [] [] false (fun _ => BackendOutcome.ok [])).1

theorem mergeCandidates_step (pool : List Str) (c : Str) (cs : List Str) :
    mergeCandidates pool (c :: cs) =
      mergeCandidates (if c ∈ pool then pool else pool ++ [c]) cs := rfl

theorem mergeCandidates_nodup (parsed : List Str) :
    ∀ pool : List Str, pool.Nodup → (mergeCandidates pool parsed).Nodup := by
  induction parsed with
  | nil => intro pool h; exact h
  | cons c cs ih =>
    intro pool h
    rw [mergeCandidates_step]
    apply ih
    by_cases hc : c ∈ pool
    · simpa [hc] using h
    · rw [if_neg hc]
      rw [List.nodup_append]
      exact ⟨h, List.nodup_singleton c, fun x hx hmem => by
        simp only [List.mem_singleton] at hmem
        exact hc (hmem ▸ hx)⟩

theorem mergeCandidates_mem (parsed : List Str) :
    ∀ (pool : List Str) (m : Str), m ∈ mergeCandidates pool parsed →
      m ∈ pool ∨ m ∈ parsed := by
  induction parsed with
  | nil => intro pool m h; exact Or.inl h
  | cons c cs ih =>
    intro pool m h
    rw [mergeCandidates_step] at h
    rcases ih _ m h with h1 | h1
    · by_cases hc : c ∈ pool
      · rw [if_pos hc] at h1
        exact Or.inl h1
      · rw [if_neg hc] at h1
        rcases List.mem_append.mp h1 with h2 | h2
        · exact Or.inl h2
        · simp only [List.mem_singleton] at h2
          exact Or.inr (h2 ▸ List.mem_cons_self c cs)
    · exact Or.inr (List.mem_cons_of_mem c h1)

theorem attemptLoop_ok_nodup (sys usr model : Str) (hb : Bool)
    (responses : ℕ → BackendOutcome) :
    ∀ (fuel a : ℕ) (pool : List Str) (idx : ℕ) (log : List LogEntry)
      (pool' : List Str) (idx' : ℕ) (log' : List LogEntry),
      attemptLoop sys usr model hb responses fuel a pool idx log =
        .ok pool' idx' log' →
      pool.Nodup → pool'.Nodup := by
  intro fuel
  induction fuel with
  | zero =>
    intro a pool idx log pool' idx' log' h hnd
    injection h with h1 h2 h3
    exact h1 ▸ hnd
  | succ fuel ih =>
    intro a pool idx log pool' idx' log' h hnd
    unfold attemptLoop at h
    by_cases hp : pool.length < 3
    · rw [if_pos hp] at h
      rcases hro : responses idx with _ | _ | _ | raw <;> rw [hro] at h <;>
        simp only [callOllama] at h
      · exact StepResult.noConfusion h
      · exact StepResult.noConfusion h
      · exact StepResult.noConfusion h
      · exact ih _ _ _ _ _ _ _ h
          (mergeCandidates_nodup _ pool hnd)
    · rw [if_neg hp] at h
      injection h with h1 h2 h3
      exact h1 ▸ hnd

theorem attemptLoop_ok_mem (sys usr model : Str) (hb : Bool)
    (responses : ℕ → BackendOutcome) :
    ∀ (fuel a : ℕ) (pool : List Str) (idx : ℕ) (log : List LogEntry)
      (pool' : List Str) (idx' : ℕ) (log' : List LogEntry),
      attemptLoop sys usr model hb responses fuel a pool idx log =
        .ok pool' idx' log' →
      ∀ m ∈ pool', m ∈ pool ∨ isValidCommitMessage m hb = true := by
  intro fuel
  induction fuel with
  | zero =>
    intro a pool idx log pool' idx' log' h m hm
    injection h with h1 h2 h3
    exact Or.inl (h1 ▸ hm)
  | succ fuel ih =>
    intro a pool idx log pool' idx' log' h m hm
    unfold attemptLoop at h
    by_cases hp : pool.length < 3
    · rw [if_pos hp] at h
      rcases hro : responses idx with _ | _ | _ | raw <;> rw [hro] at h <;>
        simp only [callOllama] at h
      · exact StepResult.noConfusion h
      · exact StepResult.noConfusion h
      · exact StepResult.noConfusion h
      · rcases ih _ _ _ _ _ _ _ h m hm with h1 | h1
        · rcases mergeCandidates_mem _ pool m h1 with h2 | h2
          · exact Or.inl h2
          · unfold filterValidCommitMessages at h2
            have := List.mem_filter.mp h2
            exact Or.inr (by simpa using this.2)
        · exact Or.inr h1
    · rw [if_neg hp] at h
      injection h with h1 h2 h3
      exact Or.inl (h1 ▸ hm)

/-- C2 counterexample: a run in which attempt 1 returns "Fix bug" and
attempt 2 returns "fix bug".  The pool-merge membership test
(`candidates.includes`) is case-sensitive, so the returned list contains
two members that are equal under case-insensitive comparison. -/
theorem c2_counterexample :
    (generateCommitMessages [] [] [] false (fun k =>
      if k = 0 then BackendOutcome.ok ("Fix bug".toList)
      else if k = 1 then BackendOutcome.ok ("fix bug".toList)
      else BackendOutcome.ok ("Add tests".toList))).1 =
      RunResult.done
        [("Fix bug".toList), ("fix bug".toList), ("Add tests".toList)] ∧
    ("Fix bug".toList : Str) ≠ ("fix bug".toList : Str) ∧
    toLowerStr ("Fix bug".toList) = toLowerStr ("fix bug".toList) :=
  ⟨by decide, by decide, by decide⟩

/-- C2 (amended): within a single response `parseResponse` deduplicates
case-insensitively, but the cross-attempt merge checks only exact string
membership, so a candidate already in the pool in a different casing is
added again.  What does hold is that the pool built by the attempt loop
(and its take-3 truncation) never contains two members equal as exact
strings. -/
theorem c2_amended_pool_nodup_exact (sys usr model : Str) (hb : Bool)
    (responses : ℕ → BackendOutcome) (fuel a : ℕ) (pool : List Str)
    (idx : ℕ) (log : List LogEntry) (pool' : List Str)
    (h : (attemptLoop sys usr model hb responses fuel a pool idx log).val? =
      some pool')
    (hnd : pool.Nodup) : pool'.Nodup ∧ (pool'.take 3).Nodup := by
  rcases ha : attemptLoop sys usr model hb responses fuel a pool idx log with
    ⟨p, i, lg⟩ | ⟨e, lg⟩ | lg <;> rw [ha] at h <;>
    simp only [StepResult.val?] at h
  · have hp : p = pool' := by injection h
    have := attemptLoop_ok_nodup sys usr model hb responses fuel a pool idx log
      p i lg ha hnd
    exact ⟨hp ▸ this, List.Nodup.sublist (List.take_sublist 3 pool') (hp ▸ this)⟩
  · exact Option.noConfusion h
  · exact Option.noConfusion h

/-- Witness for C2's amended statement at a concrete script. -/
theorem c2_amended_pool_nodup_exact_witness :
    [("Fix bug".toList : Str)].Nodup :=
  (c2_amended_pool_nodup_exact [] [] [] false
    (fun _ => BackendOutcome.ok ("Fix bug".toList)) 3 0 [] 0 []
    [("Fix bug".toList)] (by decide) List.nodup_nil).1

/-- C4 counterexample: a transport failure on the length-repair backend
call is fatal — `callOllama` exits the process — contradicting the claim
that a repair backend failure is never fatal and always compensated by
truncation. -/
theorem c4_counterexample :
    (generateCommitMessages [] [] [] false (fun k =>
      if k < 3 then
        BackendOutcome.ok
          ("aaaaaaaaaaaaaaaaaaaaaaaaaaaaaaaaaaaaaaaaaaaaaaaaaaaaaaaaaaaaaaaaaaaaaaaaa".toList)
      else BackendOutcome.transportFail)).1 =
      RunResult.exited ExitCond.connectError := by decide

/-- C4 (amended): a repair result that is empty or still over 72
characters after cleaning, or an exception while decoding the repair
response body, is never fatal: the controller compensates by hard
truncation (the first 69 characters of the over-length line plus an
ellipsis, hence within 72).  A transport failure on the repair call,
however, exits the process, as on the primary path. -/
theorem c4_amended_repair_fallback (model : Str)
    (responses : ℕ → BackendOutcome) (message : Str) (idx : ℕ)
    (log : List LogEntry) (hlen : 72 < message.length) :
    (responses idx = BackendOutcome.badBody →
      validateSubjectLengthStep model responses message idx log =
        .ok (truncateMsg message) (idx + 1) (log ++ [shortenEntry model message])) ∧
    (∀ r, responses idx = BackendOutcome.ok r →
      (cleanCandidate r).isEmpty = true ∨ 72 < (cleanCandidate r).length →
      validateSubjectLengthStep model responses message idx log =
        .ok (truncateMsg message) (idx + 1) (log ++ [shortenEntry model message])) ∧
    (responses idx = BackendOutcome.transportFail →
      validateSubjectLengthStep model responses message idx log =
        .fatal ExitCond.connectError (log ++ [shortenEntry model message])) ∧
    truncateMsg message = message.take 69 ++ ("...".toList) ∧
    (truncateMsg message).length ≤ 72 := by
  have hnle : ¬ message.length ≤ 72 := by omega
  refine ⟨?_, ?_, ?_, rfl, truncateMsg_length_le message⟩
  · intro hro
    unfold validateSubjectLengthStep
    rw [if_neg hnle, hro]
    rfl
  · intro r hro hbad
    unfold validateSubjectLengthStep
    rw [if_neg hnle, hro]
    simp only [callOllama]
    have hcond : ¬ (!(cleanCandidate r).isEmpty &&
        decide ((cleanCandidate r).length ≤ 72)) = true := by
      intro hc
      simp only [Bool.and_eq_true, Bool.not_eq_true', decide_eq_true_eq] at hc
      rcases hbad with hbad | hbad
      · rw [hc.1] at hbad
        exact Bool.noConfusion hbad
      · omega
    rw [if_neg hcond]
  · intro hro
    unfold validateSubjectLengthStep
    rw [if_neg hnle, hro]
    rfl

/-- Witness for C4's amended statement: a 73-character subject whose
repair response body fails to decode is truncated to 72 characters. -/
theorem c4_amended_repair_fallback_witness :
    validateSubjectLengthStep [] (fun _ => BackendOutcome.badBody)
        ("aaaaaaaaaaaaaaaaaaaaaaaaaaaaaaaaaaaaaaaaaaaaaaaaaaaaaaaaaaaaaaaaaaaaaaaaa".toList) 0 [] =
      .ok (truncateMsg
          ("aaaaaaaaaaaaaaaaaaaaaaaaaaaaaaaaaaaaaaaaaaaaaaaaaaaaaaaaaaaaaaaaaaaaaaaaa".toList))
        1 ([] ++ [shortenEntry []
          ("aaaaaaaaaaaaaaaaaaaaaaaaaaaaaaaaaaaaaaaaaaaaaaaaaaaaaaaaaaaaaaaaaaaaaaaaa".toList)]) ∧
    (truncateMsg
        ("aaaaaaaaaaaaaaaaaaaaaaaaaaaaaaaaaaaaaaaaaaaaaaaaaaaaaaaaaaaaaaaaaaaaaaaaa".toList)).length ≤ 72 := by
  have h := c4_amended_repair_fallback [] (fun _ => BackendOutcome.badBody)
    ("aaaaaaaaaaaaaaaaaaaaaaaaaaaaaaaaaaaaaaaaaaaaaaaaaaaaaaaaaaaaaaaaaaaaaaaaa".toList) 0 [] (by decide)
  exact ⟨h.1 rfl, h.2.2.2.2⟩

theorem valid_single_no_nl (m : Str) (h : isValidCommitMessage m false = true) :
    '\n' ∉ m := by
  by_cases hlen : 1 < (splitNl m).length
  · exfalso
    simp [isValidCommitMessage, hlen] at h
  · have hpos : 0 < (splitNl m).length :=
      List.length_pos.mpr (splitNl_ne_nil m)
    exact splitNl_length_one m (by omega)

/-- C3 counterexample: in single-line mode a length-repair response whose
cleaned text contains a newline is returned to the caller unchanged, so a
returned candidate contains a newline. -/
theorem c3_counterexample :
    (generateCommitMessages [] [] [] false (fun k =>
      if k < 3 then
        BackendOutcome.ok
          ("aaaaaaaaaaaaaaaaaaaaaaaaaaaaaaaaaaaaaaaaaaaaaaaaaaaaaaaaaaaaaaaaaaaaaaaaa".toList)
      else BackendOutcome.ok ("fix\nbug".toList))).1 =
      RunResult.done [("fix\nbug".toList)] ∧
    '\n' ∈ ("fix\nbug".toList : Str) :=
  ⟨by decide, by decide⟩

/-- C3 (amended): in single-line mode, candidates admitted by the validity
filter and the truncation fallback never contain a newline; a returned
candidate can contain a newline only if the cleaned text of a backend
response does.  If every cleaned backend response is newline-free, every
returned candidate is newline-free. -/
theorem c3_amended_no_newline (sys usr model : Str)
    (responses : ℕ → BackendOutcome) (l : List Str)
    (h : (generateCommitMessages sys usr model false responses).1 =
      RunResult.done l)
    (hclean : ∀ i r, responses i = BackendOutcome.ok r →
      '\n' ∉ cleanCandidate r) :
    ∀ m ∈ l, '\n' ∉ m := by
  obtain ⟨pool, idx, log1, idx2, log2, ha, hne, hr⟩ :=
    gen_done_inv sys usr model false responses l h
  have hpool : ∀ m ∈ pool.take 3, '\n' ∉ m := by
    intro m hm
    rcases attemptLoop_ok_mem sys usr model false responses 3 0 [] 0 []
        pool idx log1 ha m (List.mem_of_mem_take hm) with h1 | h1
    · exact absurd h1 (List.not_mem_nil m)
    · exact valid_single_no_nl m h1
  intro m hm
  obtain ⟨m0, i, lg, i2, lg2, hmem, hstep⟩ :=
    repairAll_ok_mem model false responses (pool.take 3) idx log1 l idx2 log2
      hr m hm
  rw [if_neg (by simp)] at hstep
  rcases vslStep_ok_cases model responses m0 i lg m i2 lg2 hstep with
    ⟨h1, _⟩ | ⟨r, hro, h1, _⟩ | h1
  · exact h1 ▸ hpool m0 hmem
  · exact h1 ▸ hclean i r hro
  · exact h1 ▸ truncateMsg_no_nl m0 (hpool m0 hmem)

/-- Witness for C3's amended statement at a concrete script. -/
theorem c3_amended_no_newline_witness : '\n' ∉ ("Fix parser".toList : Str) := by
  have h := c3_amended_no_newline [] [] []
    (fun _ => BackendOutcome.ok ("Fix parser".toList))
    [("Fix parser".toList)] (by decide)
    (fun i r hr => by
      injection hr with h1
      subst h1
      decide)
  exact h _ (List.mem_singleton.mpr rfl)

theorem firstLine_no_nl (s : Str) : '\n' ∉ firstLine s := by
  intro h
  have := List.mem_takeWhile_imp h
  simp at this

/-- C10 counterexample: a subject+body candidate whose repair response
contains an embedded newline; the repaired message has an extra line, so
the lines after the first are not the original ones. -/
theorem c10_counterexample :
    (validateBodySubjectLengthStep []
        (fun _ => BackendOutcome.ok ("fix\nbug".toList))
        (("aaaaaaaaaaaaaaaaaaaaaaaaaaaaaaaaaaaaaaaaaaaaaaaaaaaaaaaaaaaaaaaaaaaaaaaaa\n- body".toList)) 0 []).val? =
      some ("fix\nbug\n- body".toList) ∧
    (splitNl ("fix\nbug\n- body".toList)).drop 1 ≠
      (splitNl (("aaaaaaaaaaaaaaaaaaaaaaaaaaaaaaaaaaaaaaaaaaaaaaaaaaaaaaaaaaaaaaaaaaaaaaaaa\n- body".toList))).drop 1 :=
  ⟨by decide, by decide⟩

/-- C10 (amended): the length-repair pass keeps the original lines after
the first unchanged, in order, as a suffix of the result's lines; if the
cleaned repair response contains no newline (and always when no repair
call was made) the lines after the first are exactly the original ones. -/
theorem c10_amended_tail_preserved (model : Str)
    (responses : ℕ → BackendOutcome) (m : Str) (idx : ℕ)
    (log : List LogEntry) (m' : Str) (idx' : ℕ) (log' : List LogEntry)
    (h : validateBodySubjectLengthStep model responses m idx log =
      .ok m' idx' log') :
    List.IsSuffix ((splitNl m).drop 1) (splitNl m') ∧
    ((∀ r, responses idx = BackendOutcome.ok r → '\n' ∉ cleanCandidate r) →
      (splitNl m').drop 1 = (splitNl m).drop 1) := by
  rcases vbslStep_ok_cases model responses m idx log m' idx' log' h with
    ⟨h1, _⟩ | ⟨rest, short, idx2, log2, hsp, hv, hm⟩
  · refine ⟨?_, fun _ => by rw [h1]⟩
    rw [h1]
    exact List.drop_suffix 1 (splitNl m)
  · have hdropm : (splitNl m).drop 1 = rest := by rw [hsp]; rfl
    have hrest_nl : ∀ p ∈ rest, '\n' ∉ p := fun p hp =>
      splitNl_no_nl m p (by rw [hsp]; exact List.mem_cons_of_mem _ hp)
    have hshort_nl : (∀ r, responses idx = BackendOutcome.ok r →
        '\n' ∉ cleanCandidate r) → '\n' ∉ short := by
      intro hclean
      rcases vslStep_ok_cases model responses (firstLine m) idx log short idx2
          log2 hv with ⟨h2, _⟩ | ⟨r, hro, h2, _⟩ | h2
      · rw [h2]
        exact firstLine_no_nl m
      · exact h2 ▸ hclean r hro
      · exact h2 ▸ truncateMsg_no_nl _ (firstLine_no_nl m)
    cases rest with
    | nil =>
      rw [hm]
      have hj : joinNl [short] = short := rfl
      rw [hj]
      constructor
      · rw [hdropm]
        exact List.nil_suffix
      · intro hclean
        rw [splitNl_of_no_nl short (hshort_nl hclean), hdropm]
        rfl
    | cons y ys =>
      rw [hm]
      have hjoin : splitNl (joinNl (short :: y :: ys)) =
          splitNl short ++ (y :: ys) := by
        rw [joinNl_cons_ne short (y :: ys) (by simp), splitNl_append_nl,
          splitNl_joinNl (y :: ys) (by simp) hrest_nl]
      rw [hjoin]
      constructor
      · rw [hdropm]
        exact List.suffix_append (splitNl short) (y :: ys)
      · intro hclean
        rw [splitNl_of_no_nl short (hshort_nl hclean), hdropm]
        rfl

/-- Witness for C10's amended statement: an over-length subject repaired by
a newline-free response keeps its body line unchanged. -/
theorem c10_amended_tail_preserved_witness :
    (splitNl ("Short subject\nbody".toList)).drop 1 =
      (splitNl (("aaaaaaaaaaaaaaaaaaaaaaaaaaaaaaaaaaaaaaaaaaaaaaaaaaaaaaaaaaaaaaaaaaaaaaaaa\nbody".toList))).drop 1 := by
  have h := c10_amended_tail_preserved []
    (fun _ => BackendOutcome.ok ("Short subject".toList))
    (("aaaaaaaaaaaaaaaaaaaaaaaaaaaaaaaaaaaaaaaaaaaaaaaaaaaaaaaaaaaaaaaaaaaaaaaaa\nbody".toList)) 0 []
    ("Short subject\nbody".toList) 1
    [shortenEntry [] ("aaaaaaaaaaaaaaaaaaaaaaaaaaaaaaaaaaaaaaaaaaaaaaaaaaaaaaaaaaaaaaaaaaaaaaaaa".toList)]
    (by rfl)
  exact h.2 (fun r hr => by
    injection hr with h1
    subst h1
    decide)

/-- C9 counterexample: cleaning is not idempotent.  Quote stripping can
expose a leading enumeration marker, which a second application then
removes: cleaning a quoted "1. fix" yields "1. fix", and cleaning that
again yields "fix". -/
theorem c9_counterexample :
    cleanCandidate (cleanCandidate ("\x271. fix\x27".toList)) ≠
      cleanCandidate ("\x271. fix\x27".toList) := by decide

theorem dropWhile_eq_self_of_head (p : Char → Bool) (s : Str)
    (h : ∀ c, s.head? = some c → p c = false) : s.dropWhile p = s := by
  cases s with
  | nil => rfl
  | cons c rest => simp [List.dropWhile_cons, h c rfl]

theorem dropEndWhile_eq_self (p : Char → Bool) (s : Str)
    (h : ∀ c, s.getLast? = some c → p c = false) : dropEndWhile p s = s := by
  unfold dropEndWhile
  rw [dropWhile_eq_self_of_head p s.reverse
    (fun c hc => h c (by rwa [List.head?_reverse] at hc)), List.reverse_reverse]

theorem stripWrap_eq_self (p : Char → Bool) (s : Str)
    (hh : ∀ c, s.head? = some c → p c = false)
    (hl : ∀ c, s.getLast? = some c → p c = false) : stripWrap p s = s := by
  unfold stripWrap
  rw [dropWhile_eq_self_of_head p s hh]
  exact dropEndWhile_eq_self p s hl

theorem containsCI_cons_none (pat : Str) (c : Char) (rest : Str)
    (h : containsCI pat (c :: rest) = false) :
    ciStrip pat (c :: rest) = none ∧ containsCI pat rest = false := by
  unfold containsCI at *
  unfold splitFirstCI at h
  rcases hx : ciStrip pat (c :: rest) with _ | r
  · rw [hx] at h
    rcases hy : splitFirstCI pat rest with _ | ⟨b, a⟩
    · exact ⟨rfl, rfl⟩
    · rw [hy] at h
      simp at h
  · rw [hx] at h
    simp at h

theorem stripThinkTags_eq_self :
    ∀ (s : Str), containsCI thinkOpenTag s = false →
      containsCI thinkCloseTag s = false →
      ∀ fuel, stripThinkTags fuel s = s := by
  intro s
  induction s with
  | nil =>
    intro _ _ fuel
    cases fuel <;> rfl
  | cons c rest ih =>
    intro ho hc fuel
    cases fuel with
    | zero => rfl
    | succ f =>
      obtain ⟨ho1, ho2⟩ := containsCI_cons_none thinkOpenTag c rest ho
      obtain ⟨hc1, hc2⟩ := containsCI_cons_none thinkCloseTag c rest hc
      simp only [stripThinkTags, hc1, ho1]
      rw [ih ho2 hc2 f]

/-- C9 (amended): cleaning acts as the identity on already-clean strings —
trimmed, not starting with an enumeration or bullet marker, not wrapped in
quote or emphasis characters, and free of think-tag fragments — and hence
is idempotent on them.  On arbitrary strings idempotence fails (see the
counterexample: stripping quotes can expose a fresh enumeration marker). -/
theorem c9_amended_clean_fixed_point (s : Str)
    (hhead : ∀ c, s.head? = some c → isWsChar c = false ∧
      isBulletChar c = false ∧ isQuoteChar c = false ∧ isEmphChar c = false)
    (hlast : ∀ c, s.getLast? = some c → isWsChar c = false ∧
      isQuoteChar c = false ∧ isEmphChar c = false)
    (hnum : s.takeWhile Char.isDigit = [] ∨
      ∀ c rest, s.dropWhile Char.isDigit = c :: rest →
        c ≠ '.' ∧ c ≠ ')' ∧ c ≠ ':')
    (hthink : containsCI thinkOpenTag s = false ∧
      containsCI thinkCloseTag s = false) :
    cleanCandidate s = s ∧
    cleanCandidate (cleanCandidate s) = cleanCandidate s := by
  have htrim : trimStr s = s :=
    stripWrap_eq_self isWsChar s (fun c hc => (hhead c hc).1)
      (fun c hc => (hlast c hc).1)
  have hnum2 : stripNumbering s = s := by
    unfold stripNumbering
    by_cases ht : s.takeWhile Char.isDigit = []
    · rw [if_pos ht]
    · rw [if_neg ht]
      rcases hnum with h | h
      · exact absurd h ht
      · split
        next c rest hd =>
          obtain ⟨hc1, hc2, hc3⟩ := h c rest hd
          rw [if_neg (by simp [hc1, hc2, hc3])]
        next hd => rfl
  have hbul : stripBullet s = s := by
    cases s with
    | nil => rfl
    | cons c rest =>
      have hb : isBulletChar c = false := (hhead c rfl).2.1
      have hb2 : (decide (c = '-') || decide (c = '*') || decide (c = '•')) = false := hb
      simp [stripBullet, hb2]
  have hq : stripWrap isQuoteChar s = s :=
    stripWrap_eq_self isQuoteChar s (fun c hc => (hhead c hc).2.2.1)
      (fun c hc => (hlast c hc).2.1)
  have he : stripWrap isEmphChar s = s :=
    stripWrap_eq_self isEmphChar s (fun c hc => (hhead c hc).2.2.2)
      (fun c hc => (hlast c hc).2.2)
  have hth : stripThinkTags s.length s = s :=
    stripThinkTags_eq_self s hthink.1 hthink.2 s.length
  have hclean : cleanCandidate s = s := by
    unfold cleanCandidate
    simp only [htrim, hnum2, hbul, hq, he, hth]
    by_cases hs : s.length = 0
    · rw [if_pos hs]
      exact (List.eq_nil_of_length_eq_zero hs).symm
    · rw [if_neg hs]
  exact ⟨hclean, by rw [hclean, hclean]⟩

/-- Witness for C9's amended statement: an already-clean string is a fixed
point of the cleaner. -/
theorem c9_amended_clean_fixed_point_witness :
    cleanCandidate ("Fix parser".toList) = ("Fix parser".toList) ∧
    cleanCandidate (cleanCandidate ("Fix parser".toList)) =
      cleanCandidate ("Fix parser".toList) :=
  c9_amended_clean_fixed_point ("Fix parser".toList)
    (fun c hc => by injection hc with h1; subst h1; decide)
    (fun c hc => by injection hc with h1; subst h1; decide)
    (Or.inl rfl)
    ⟨by decide, by decide⟩

/-- C6 counterexample: a JSON object with a key other than `messages`
holding an array of strings.  The text satisfies the claim's premise (the
trimmed content parses as a JSON object containing a key whose value is an
array of strings), yet structured extraction fails: the source only
accepts the key `messages`. -/
theorem c6_counterexample :
    jsonParse (trimStr ("\x7b\"other\":[\"a\",\"b\"]\x7d".toList)) =
      some (JValue.obj [(("other".toList),
        JValue.arr [JValue.str ("a".toList), JValue.str ("b".toList)])]) ∧
    parseStructuredResponse ("\x7b\"other\":[\"a\",\"b\"]\x7d".toList) = none :=
  ⟨rfl, by decide⟩

theorem tryStructured_of_parse_arr (c : Str) (xs : List JValue)
    (h : jsonParse c = some (JValue.arr xs)) :
    tryStructured c = some (stringElems xs) := by
  have hne : c.isEmpty = false := by
    cases c with
    | nil => rw [show jsonParse [] = none from rfl] at h; exact Option.noConfusion h
    | cons a t => rfl
  unfold tryStructured
  rw [if_neg (by simp [hne]), h]

theorem tryStructured_of_parse_obj (c : Str) (fields : List (Str × JValue))
    (xs : List JValue)
    (h : jsonParse c = some (JValue.obj fields))
    (hm : lookupField fields ("messages".toList) = some (JValue.arr xs)) :
    tryStructured c = some (stringElems xs) := by
  have hne : c.isEmpty = false := by
    cases c with
    | nil => rw [show jsonParse [] = none from rfl] at h; exact Option.noConfusion h
    | cons a t => rfl
  unfold tryStructured
  rw [if_neg (by simp [hne]), h]
  simp only [hm]

/-- C6 (amended): structured extraction succeeds on any text whose trimmed
content parses as a JSON array (keeping only string elements), or as a
JSON object whose `messages` key — not an arbitrary key — holds an array,
discarding non-string elements; and
`{"messages":["a","a","b"]}` normalizes to `["a","b"]` in either mode. -/
theorem c6_amended_structured_extraction :
    (∀ (s : Str) (xs : List JValue),
      jsonParse (trimStr s) = some (JValue.arr xs) →
      parseStructuredResponse s = some (stringElems xs)) ∧
    (∀ (s : Str) (fields : List (Str × JValue)) (xs : List JValue),
      jsonParse (trimStr s) = some (JValue.obj fields) →
      lookupField fields ("messages".toList) = some (JValue.arr xs) →
      parseStructuredResponse s = some (stringElems xs)) ∧
    (∀ hb : Bool,
      parseResponse ("\x7b\"messages\":[\"a\",\"a\",\"b\"]\x7d".toList) hb =
        [("a".toList), ("b".toList)]) := by
  refine ⟨?_, ?_, ?_⟩
  · intro s xs h
    unfold parseStructuredResponse
    rw [tryStructured_of_parse_arr (trimStr s) xs h]
  · intro s fields xs h hm
    unfold parseStructuredResponse
    rw [tryStructured_of_parse_obj (trimStr s) fields xs h hm]
  · intro hb
    cases hb <;> decide

/-- Witness for C6's amended statement: a bare JSON array of one string. -/
theorem c6_amended_structured_extraction_witness :
    parseStructuredResponse ("[\"x\"]".toList) = some [("x".toList)] := by
  have h := c6_amended_structured_extraction.1 ("[\"x\"]".toList)
    [JValue.str ("x".toList)] rfl
  exact h

theorem dedupeAux_sublist : ∀ (cs seen : List Str),
    (dedupeAux seen cs).Sublist cs := by
  intro cs
  induction cs with
  | nil => intro seen; simp [dedupeAux]
  | cons c cs ih =>
    intro seen
    unfold dedupeAux
    by_cases hc : toLowerStr c ∈ seen
    · rw [if_pos hc]
      exact (ih seen).cons c
    · rw [if_neg hc]
      exact (ih _).cons₂ c

theorem dedupeAux_props : ∀ (cs seen : List Str),
    (∀ y ∈ dedupeAux seen cs, toLowerStr y ∉ seen) ∧
    List.Pairwise (fun a b => toLowerStr a ≠ toLowerStr b) (dedupeAux seen cs) ∧
    (∀ y ∈ dedupeAux seen cs, firstMatchCI cs y = some y) := by
  intro cs
  induction cs with
  | nil =>
    intro seen
    exact ⟨by simp [dedupeAux], by simp [dedupeAux], by simp [dedupeAux]⟩
  | cons c cs ih =>
    intro seen
    unfold dedupeAux
    by_cases hc : toLowerStr c ∈ seen
    · rw [if_pos hc]
      obtain ⟨h1, h2, h3⟩ := ih seen
      refine ⟨h1, h2, ?_⟩
      intro y hy
      unfold firstMatchCI
      rw [if_neg ?_]
      · exact h3 y hy
      · intro heq
        exact h1 y hy (heq ▸ hc)
    · rw [if_neg hc]
      obtain ⟨h1, h2, h3⟩ := ih (toLowerStr c :: seen)
      refine ⟨?_, ?_, ?_⟩
      · intro y hy
        rcases List.mem_cons.mp hy with h4 | h4
        · exact h4 ▸ hc
        · intro hin
          exact h1 y h4 (List.mem_cons_of_mem _ hin)
      · rw [List.pairwise_cons]
        refine ⟨?_, h2⟩
        intro y hy heq
        exact h1 y hy (heq ▸ List.mem_cons_self _ _)
      · intro y hy
        rcases List.mem_cons.mp hy with h4 | h4
        · subst h4
          unfold firstMatchCI
          rw [if_pos rfl]
        · have hne : toLowerStr y ≠ toLowerStr c := by
            intro heq
            exact h1 y h4 (heq ▸ List.mem_cons_self _ _)
          unfold firstMatchCI
          rw [if_neg (fun heq => hne heq.symm)]
          exact h3 y h4

theorem ciStrip_self_append (p t : Str) : ciStrip p (p ++ t) = some t := by
  induction p with
  | nil => rfl
  | cons a ps ih =>
    show ciStrip (a :: ps) (a :: (ps ++ t)) = some t
    unfold ciStrip
    rw [if_pos (by simp [ciEq])]
    exact ih

theorem splitFirstCI_self (p : Str) (hp : p ≠ []) (t : Str) :
    splitFirstCI p (p ++ t) = some ([], t) := by
  cases p with
  | nil => exact absurd rfl hp
  | cons a ps =>
    show splitFirstCI (a :: ps) (a :: (ps ++ t)) = some ([], t)
    unfold splitFirstCI
    rw [show ciStrip (a :: ps) (a :: (ps ++ t)) =
      ciStrip (a :: ps) ((a :: ps) ++ t) from rfl, ciStrip_self_append]

theorem ciStrip_none_append (p : Str) :
    ∀ (xs ys : Str), p.length ≤ xs.length → ciStrip p xs = none →
      ciStrip p (xs ++ ys) = none := by
  induction p with
  | nil => intro xs ys _ h; exact absurd h (by simp [ciStrip])
  | cons a ps ih =>
    intro xs ys hlen h
    cases xs with
    | nil => simp at hlen
    | cons x xs' =>
      rw [List.cons_append]
      unfold ciStrip at h ⊢
      by_cases hx : ciEq a x = true
      · rw [if_pos hx] at h ⊢
        exact ih xs' ys (by simpa using hlen) h
      · rw [if_neg hx]

theorem ciStrip_close_border (u : Str) (h1 : u ≠ []) (h2 : u.length < 8) :
    ciStrip thinkCloseTag (u ++ thinkCloseTag) = none := by
  have e1 : ciEq '/' '<' = false := by decide
  have e2 : ciEq 't' '<' = false := by decide
  have e3 : ciEq 'h' '<' = false := by decide
  have e4 : ciEq 'i' '<' = false := by decide
  have e5 : ciEq 'n' '<' = false := by decide
  have e6 : ciEq 'k' '<' = false := by decide
  have e7 : ciEq '>' '<' = false := by decide
  have hct : thinkCloseTag =
      '<' :: '/' :: 't' :: 'h' :: 'i' :: 'n' :: 'k' :: '>' :: [] := rfl
  rcases u with _ | ⟨a, _ | ⟨b, _ | ⟨c, _ | ⟨d, _ | ⟨e, _ | ⟨f, _ | ⟨g, rest⟩⟩⟩⟩⟩⟩⟩
  · exact absurd rfl h1
  · rw [hct]; simp [ciStrip, e1, ite_self]
  · rw [hct]; simp [ciStrip, e2, ite_self]
  · rw [hct]; simp [ciStrip, e3, ite_self]
  · rw [hct]; simp [ciStrip, e4, ite_self]
  · rw [hct]; simp [ciStrip, e5, ite_self]
  · rw [hct]; simp [ciStrip, e6, ite_self]
  · have hrest : rest = [] := by
      simp only [List.length_cons] at h2
      exact List.eq_nil_of_length_eq_zero (by omega)
    subst hrest
    rw [hct]; simp [ciStrip, e7, ite_self]

theorem splitFirstCI_close_boundary (body : Str)
    (h : splitFirstCI thinkCloseTag body = none) :
    splitFirstCI thinkCloseTag (body ++ thinkCloseTag) = some (body, []) := by
  induction body with
  | nil =>
    rw [List.nil_append]
    have := splitFirstCI_self thinkCloseTag (by decide) []
    rwa [List.append_nil] at this
  | cons c bs ih =>
    have hparts : ciStrip thinkCloseTag (c :: bs) = none ∧
        splitFirstCI thinkCloseTag bs = none := by
      constructor
      · rcases hx : ciStrip thinkCloseTag (c :: bs) with _ | r
        · rfl
        · unfold splitFirstCI at h
          rw [hx] at h
          exact Option.noConfusion h
      · rcases hy : splitFirstCI thinkCloseTag bs with _ | pr
        · rfl
        · unfold splitFirstCI at h
          rcases hx : ciStrip thinkCloseTag (c :: bs) with _ | r
          · rw [hx, hy] at h
            rcases pr with ⟨b2, a2⟩
            exact Option.noConfusion h
          · rw [hx] at h
            exact Option.noConfusion h
    have hnone : ciStrip thinkCloseTag ((c :: bs) ++ thinkCloseTag) = none := by
      by_cases hlen : 8 ≤ (c :: bs).length
      · exact ciStrip_none_append thinkCloseTag (c :: bs) thinkCloseTag
          (by rw [show thinkCloseTag.length = 8 from rfl]; omega) hparts.1
      · exact ciStrip_close_border (c :: bs) (by simp) (by omega)
    have hrec := ih hparts.2
    show splitFirstCI thinkCloseTag (c :: (bs ++ thinkCloseTag)) =
      some (c :: bs, [])
    unfold splitFirstCI
    rw [show ciStrip thinkCloseTag (c :: (bs ++ thinkCloseTag)) =
      ciStrip thinkCloseTag ((c :: bs) ++ thinkCloseTag) from rfl, hnone, hrec]

theorem stripThinkAux_nil (fuel : ℕ) : stripThinkAux fuel [] = [] := by
  cases fuel <;> rfl

theorem stripThinkBlocks_only_block (body : Str)
    (h : containsCI thinkCloseTag body = false) :
    stripThinkBlocks (thinkOpenTag ++ body ++ thinkCloseTag) = [] := by
  have hsplit : splitFirstCI thinkCloseTag body = none := by
    unfold containsCI at h
    rcases hx : splitFirstCI thinkCloseTag body with _ | pr
    · rfl
    · rw [hx] at h
      simp at h
  have hlen : (thinkOpenTag ++ body ++ thinkCloseTag).length
      = (body.length + 14) + 1 := by
    simp [thinkOpenTag, thinkCloseTag]
  have h1 : splitFirstCI thinkOpenTag (thinkOpenTag ++ body ++ thinkCloseTag) =
      some ([], body ++ thinkCloseTag) := by
    rw [List.append_assoc]
    exact splitFirstCI_self thinkOpenTag (by decide) (body ++ thinkCloseTag)
  have h2 := splitFirstCI_close_boundary body hsplit
  unfold stripThinkBlocks
  rw [hlen]
  unfold stripThinkAux
  simp only [h1, h2]
  simpa using stripThinkAux_nil (body.length + 14)

/-- C7: for every raw text and mode flag, the normalizer returns at most 3
candidates, pairwise distinct under case-insensitive comparison, in
first-seen order (a sublist of the pre-deduplication candidate list) and
with first-seen casing (each member is the first candidate with its
lowercase key); raw text that is empty, only whitespace, or only a
reasoning block normalizes to the empty list. -/
theorem c7_normalizer_contract (raw : Str) (hb : Bool) :
    (parseResponse raw hb).length ≤ 3 ∧
    List.Pairwise (fun a b => toLowerStr a ≠ toLowerStr b) (parseResponse raw hb) ∧
    (parseResponse raw hb).Sublist
      (candidateLines (trimStr (stripThinkBlocks raw)) hb) ∧
    (∀ y ∈ parseResponse raw hb,
      firstMatchCI (candidateLines (trimStr (stripThinkBlocks raw)) hb) y = some y) ∧
    (trimStr raw = [] → parseResponse raw hb = []) ∧
    (∀ body, containsCI thinkCloseTag body = false →
      raw = thinkOpenTag ++ body ++ thinkCloseTag → parseResponse raw hb = []) := by
  have hmain : parseResponse raw hb = [] ∨
      parseResponse raw hb =
        (dedupeCandidates (candidateLines (trimStr (stripThinkBlocks raw)) hb)).take 3 := by
    unfold parseResponse
    by_cases h1 : (raw.isEmpty || (trimStr raw).isEmpty) = true
    · rw [if_pos h1]
      exact Or.inl rfl
    · rw [if_neg h1]
      by_cases h2 : (trimStr (stripThinkBlocks raw)).isEmpty = true
      · rw [if_pos h2]
        exact Or.inl rfl
      · rw [if_neg h2]
        exact Or.inr rfl
  obtain ⟨hseen, hpair, hfirst⟩ :=
    dedupeAux_props (candidateLines (trimStr (stripThinkBlocks raw)) hb) []
  refine ⟨?_, ?_, ?_, ?_, ?_, ?_⟩
  · rcases hmain with h | h
    · simp [h]
    · rw [h, List.length_take]
      exact Nat.min_le_left _ _
  · rcases hmain with h | h
    · simp [h]
    · rw [h]
      exact hpair.sublist (List.take_sublist _ _)
  · rcases hmain with h | h
    · rw [h]
      exact List.nil_sublist _
    · rw [h]
      exact (List.take_sublist _ _).trans
        (dedupeAux_sublist (candidateLines (trimStr (stripThinkBlocks raw)) hb) [])
  · rcases hmain with h | h
    · rw [h]
      intro y hy
      exact absurd hy (List.not_mem_nil y)
    · rw [h]
      intro y hy
      exact hfirst y ((List.take_sublist _ _).subset hy)
  · intro he
    simp [parseResponse, he]
  · intro body hnc hraw
    subst hraw
    have hstrip := stripThinkBlocks_only_block body hnc
    simp only [parseResponse]
    rw [hstrip]
    simp only [List.isEmpty_iff, Bool.or_eq_true, List.isEmpty_eq_true]
    by_cases hA : thinkOpenTag ++ body ++ thinkCloseTag = [] ∨
        trimStr (thinkOpenTag ++ body ++ thinkCloseTag) = []
    · rw [if_pos hA]
    · rw [if_neg hA, if_pos (show trimStr [] = [] from rfl)]

/-- Witness for C7: the normalizer on an input that is only a reasoning
block, and on whitespace. -/
theorem c7_normalizer_contract_witness :
    parseResponse ("<think>plan the commit</think>".toList) false = [] ∧
    parseResponse ("   ".toList) true = [] := by
  refine ⟨?_, ?_⟩
  · exact (c7_normalizer_contract ("<think>plan the commit</think>".toList)
      false).2.2.2.2.2 ("plan the commit".toList) (by decide) (by decide)
  · exact (c7_normalizer_contract ("   ".toList) true).2.2.2.2.1 (by decide)
